import Mathlib

/-!
# Verification of the similarity-clustering core of `imagedupfinder`

Shallow embedding of the Go sources:

* `internal/fileutil_windows.go` — `HammingDistance` (Kernighan popcount loop);
* `internal/match/perceptual.go` — `PerceptualMatcher`, `unionFind`, `bkTree`;
* `internal/match/matcher.go` — `buildGroups`, `selectKeepAndRemove`;
* `internal/match/exact.go` — `ExactMatcher`;
* `internal/grouper.go` — `Grouper` (brute-force O(n²) pairwise clustering).

Modelling conventions:

* Go `uint64` fingerprints are `Nat` values (claims that depend on the width
  carry an explicit `< 2 ^ 64` hypothesis); Go `int` thresholds reaching the
  search are non-negative by construction (`NewPerceptualMatcher` replaces
  negative values by 10), and the constructor clamp itself is modelled on `Int`.
* Go slices become `List`s; pointer identity of `*models.ImageInfo` is modelled
  by the item's index in the input slice, so a group member is an
  index/value pair and the in-place `GroupID` write becomes explicit
  state passing of the slice contents.
* Go `float64` scores and `time.Time` stamps are modelled as integers: the
  comparator only uses their total order (`!=`, `>`, `Equal`, `After`).
* A Go `map` is modelled as an association list in key-insertion order;
  Go's map iteration order is unspecified, the association list fixes one
  admissible order (all set-level claims are insensitive to this choice).
* Go `sort.Slice(s, less)` (unstable) is modelled by
  `List.mergeSort (fun a b => !(less b a))`: the model output is sorted and a
  permutation of the input, which is exactly the contract of `sort.Slice`.
-/

/-! ## Hamming distance (`HammingDistance`, fileutil_windows.go 196-205)

Go source:
```
func HammingDistance(hash1, hash2 uint64) int {
    xor := hash1 ^ hash2
    count := 0
    for xor != 0 {
        count++
        xor &= xor - 1
    }
    return count
}
```
-/

/-- The `for xor != 0 { count++; xor &= xor - 1 }` loop of `HammingDistance`,
fuelled so that it evaluates by structural recursion: clearing the lowest set
bit strictly decreases the value, so the value itself bounds the iteration
count and the fuel never runs out (`hammingLoop_ne_zero` recovers the plain
loop equation). -/
def hammingLoopAux : Nat → Nat → Nat
  | 0, _ => 0
  | fuel + 1, x => if x = 0 then 0 else 1 + hammingLoopAux fuel (x &&& (x - 1))

def hammingLoop (x : Nat) : Nat := hammingLoopAux x x

/-- `HammingDistance`: popcount of the xor of the two fingerprints. -/
def HammingDistance (hash1 hash2 : Nat) : Nat :=
  hammingLoop (hash1 ^^^ hash2)

/-- Reference binary-recursion bit count, used to reason about `hammingLoop`. -/
def bitCount (n : Nat) : Nat :=
  if h : n = 0 then 0
  else n % 2 + bitCount (n / 2)
termination_by n
decreasing_by omega

theorem hammingLoopAux_congr (x : Nat) :
    ∀ f g, x ≤ f → x ≤ g → hammingLoopAux f x = hammingLoopAux g x := by
  induction x using Nat.strong_induction_on with
  | _ x ih =>
    intro f g hf hg
    cases f with
    | zero =>
      have hx : x = 0 := by omega
      subst hx
      cases g with
      | zero => rfl
      | succ g2 => rfl
    | succ f2 =>
      cases g with
      | zero =>
        have hx : x = 0 := by omega
        subst hx
        rfl
      | succ g2 =>
        show (if x = 0 then 0 else 1 + hammingLoopAux f2 (x &&& (x - 1))) =
          (if x = 0 then 0 else 1 + hammingLoopAux g2 (x &&& (x - 1)))
        by_cases hx : x = 0
        · rw [if_pos hx, if_pos hx]
        · rw [if_neg hx, if_neg hx]
          have hlt : x &&& (x - 1) < x := by
            have h1 : x &&& (x - 1) ≤ x - 1 := Nat.and_le_right
            omega
          rw [ih _ hlt f2 g2 (by omega) (by omega)]

theorem hammingLoop_zero : hammingLoop 0 = 0 := rfl

theorem hammingLoop_ne_zero (x : Nat) (h : x ≠ 0) :
    hammingLoop x = 1 + hammingLoop (x &&& (x - 1)) := by
  cases x with
  | zero => exact absurd rfl h
  | succ m =>
    show (if m + 1 = 0 then 0 else 1 + hammingLoopAux m ((m + 1) &&& (m + 1 - 1))) =
      1 + hammingLoopAux ((m + 1) &&& (m + 1 - 1)) ((m + 1) &&& (m + 1 - 1))
    rw [if_neg h]
    congr 1
    exact hammingLoopAux_congr ((m + 1) &&& (m + 1 - 1)) m _
      (by have h1 : (m + 1) &&& (m + 1 - 1) ≤ m + 1 - 1 := Nat.and_le_right; omega)
      (Nat.le_refl _)

theorem bitCount_zero : bitCount 0 = 0 := by
  rw [bitCount]
  simp

theorem bitCount_ne_zero (n : Nat) (h : n ≠ 0) :
    bitCount n = n % 2 + bitCount (n / 2) := by
  rw [bitCount]
  simp [h]

/-- Kernighan's step on an odd number clears the last bit: the loop argument
`(2m+1) &&& 2m` equals `2m`. -/
theorem and_pred_odd (m : Nat) : (2 * m + 1) &&& (2 * m) = 2 * m := by
  have hmod : ((2 * m + 1) &&& (2 * m)) % 2 = 0 := by
    rcases Nat.mod_two_eq_zero_or_one ((2 * m + 1) &&& (2 * m)) with h | h
    · exact h
    · have := Nat.and_mod_two_eq_one.mp h
      omega
  have hdiv : ((2 * m + 1) &&& (2 * m)) / 2 = m := by
    rw [Nat.and_div_two]
    have h1 : (2 * m + 1) / 2 = m := by omega
    have h2 : (2 * m) / 2 = m := by omega
    rw [h1, h2, Nat.and_self]
  omega

/-- Kernighan's step on an even number happens in the high bits:
`2m &&& (2m - 1) = 2 * (m &&& (m - 1))` for `m ≠ 0`. -/
theorem and_pred_even (m : Nat) (hm : m ≠ 0) :
    (2 * m) &&& (2 * m - 1) = 2 * (m &&& (m - 1)) := by
  have hmod : ((2 * m) &&& (2 * m - 1)) % 2 = 0 := by
    rcases Nat.mod_two_eq_zero_or_one ((2 * m) &&& (2 * m - 1)) with h | h
    · exact h
    · have := Nat.and_mod_two_eq_one.mp h
      omega
  have hdiv : ((2 * m) &&& (2 * m - 1)) / 2 = m &&& (m - 1) := by
    rw [Nat.and_div_two]
    have h1 : (2 * m) / 2 = m := by omega
    have h2 : (2 * m - 1) / 2 = m - 1 := by omega
    rw [h1, h2]
  omega

theorem hammingLoop_two_mul (m : Nat) : hammingLoop (2 * m) = hammingLoop m := by
  induction m using Nat.strong_induction_on with
  | _ m ih =>
    by_cases hm : m = 0
    · subst hm; rfl
    · have h2m : 2 * m ≠ 0 := by omega
      rw [hammingLoop_ne_zero _ h2m, and_pred_even m hm,
          hammingLoop_ne_zero m hm]
      have hlt : m &&& (m - 1) < m := by
        have : m &&& (m - 1) ≤ m - 1 := Nat.and_le_right
        omega
      rw [ih _ hlt]

theorem hammingLoop_two_mul_add_one (m : Nat) :
    hammingLoop (2 * m + 1) = 1 + hammingLoop m := by
  have h : 2 * m + 1 ≠ 0 := by omega
  rw [hammingLoop_ne_zero _ h]
  have hsub : 2 * m + 1 - 1 = 2 * m := by omega
  rw [hsub, and_pred_odd, hammingLoop_two_mul]

/-- The Kernighan loop computes the binary-recursion bit count. -/
theorem hammingLoop_eq_bitCount (n : Nat) : hammingLoop n = bitCount n := by
  induction n using Nat.strong_induction_on with
  | _ n ih =>
    by_cases hn : n = 0
    · subst hn; rw [hammingLoop_zero, bitCount_zero]
    · rw [bitCount_ne_zero n hn]
      have hdiv : n / 2 < n := by omega
      rcases Nat.mod_two_eq_zero_or_one n with h | h
      · have hform : n = 2 * (n / 2) := by omega
        calc hammingLoop n = hammingLoop (2 * (n / 2)) := by rw [← hform]
          _ = hammingLoop (n / 2) := hammingLoop_two_mul _
          _ = bitCount (n / 2) := ih _ hdiv
          _ = n % 2 + bitCount (n / 2) := by omega
      · have hform : n = 2 * (n / 2) + 1 := by omega
        calc hammingLoop n = hammingLoop (2 * (n / 2) + 1) := by rw [← hform]
          _ = 1 + hammingLoop (n / 2) := hammingLoop_two_mul_add_one _
          _ = 1 + bitCount (n / 2) := by rw [ih _ hdiv]
          _ = n % 2 + bitCount (n / 2) := by omega

theorem bitCount_two_mul_add (m b : Nat) (hb : b < 2) :
    bitCount (2 * m + b) = b + bitCount m := by
  by_cases h : 2 * m + b = 0
  · have hm : m = 0 := by omega
    have hb0 : b = 0 := by omega
    subst hm; subst hb0; simp [bitCount_zero]
  · rw [bitCount_ne_zero _ h]
    have h1 : (2 * m + b) % 2 = b := by omega
    have h2 : (2 * m + b) / 2 = m := by omega
    rw [h1, h2]

/-- Subadditivity of the bit count under xor. -/
theorem bitCount_xor_le (x y : Nat) :
    bitCount (x ^^^ y) ≤ bitCount x + bitCount y := by
  induction x using Nat.strong_induction_on generalizing y with
  | _ x ih =>
    by_cases hy : y = 0
    · subst hy
      rw [Nat.xor_zero, bitCount_zero]
      omega
    · by_cases hx : x = 0
      · subst hx
        rw [Nat.zero_xor, bitCount_zero]
        omega
      · by_cases h : x ^^^ y = 0
        · rw [h, bitCount_zero]
          omega
        · rw [bitCount_ne_zero _ h, Nat.xor_div_two]
          have hxd : x / 2 < x := by omega
          have hrec := ih (x / 2) hxd (y / 2)
          have hx2 : bitCount x = x % 2 + bitCount (x / 2) := bitCount_ne_zero _ hx
          have hy2 : bitCount y = y % 2 + bitCount (y / 2) := bitCount_ne_zero _ hy
          have hmod : (x ^^^ y) % 2 ≤ x % 2 + y % 2 := by
            rcases Nat.mod_two_eq_zero_or_one (x ^^^ y) with hm | hm
            · omega
            · have := Nat.xor_mod_two_eq_one.mp hm
              rcases Nat.mod_two_eq_zero_or_one x with h1 | h1 <;>
                rcases Nat.mod_two_eq_zero_or_one y with h2 | h2 <;> omega
          omega

theorem bitCount_lt_two_pow (k : Nat) :
    ∀ x, x < 2 ^ k → bitCount x ≤ k := by
  induction k with
  | zero =>
    intro x hx
    have : x = 0 := by omega
    subst this
    simp [bitCount_zero]
  | succ k ih =>
    intro x hx
    by_cases h0 : x = 0
    · subst h0; simp [bitCount_zero]
    · rw [bitCount_ne_zero _ h0]
      have hdiv : x / 2 < 2 ^ k := by
        have h2 : 2 ^ (k + 1) = 2 * 2 ^ k := by ring
        omega
      have := ih (x / 2) hdiv
      omega

theorem HammingDistance_self (a : Nat) : HammingDistance a a = 0 := by
  unfold HammingDistance
  rw [Nat.xor_self, hammingLoop_zero]

theorem HammingDistance_comm (a b : Nat) :
    HammingDistance a b = HammingDistance b a := by
  unfold HammingDistance
  rw [Nat.xor_comm]

theorem HammingDistance_triangle (a b c : Nat) :
    HammingDistance a b ≤ HammingDistance a c + HammingDistance c b := by
  unfold HammingDistance
  rw [hammingLoop_eq_bitCount, hammingLoop_eq_bitCount, hammingLoop_eq_bitCount]
  have hx : a ^^^ b = (a ^^^ c) ^^^ (c ^^^ b) := by
    rw [Nat.xor_assoc, ← Nat.xor_assoc c c b, Nat.xor_self, Nat.zero_xor]
  rw [hx]
  exact bitCount_xor_le _ _

theorem HammingDistance_le_64 (a b : Nat) (ha : a < 2 ^ 64) (hb : b < 2 ^ 64) :
    HammingDistance a b ≤ 64 := by
  unfold HammingDistance
  rw [hammingLoop_eq_bitCount]
  exact bitCount_lt_two_pow 64 _ (Nat.xor_lt_two_pow ha hb)

theorem bitCount_pos (n : Nat) (hn : n ≠ 0) : 0 < bitCount n := by
  induction n using Nat.strong_induction_on with
  | _ n ih =>
    rw [bitCount_ne_zero n hn]
    rcases Nat.mod_two_eq_zero_or_one n with h | h
    · have hd : n / 2 ≠ 0 := by omega
      have := ih (n / 2) (by omega) hd
      omega
    · omega

/-- Zero distance forces equal fingerprints (sanity check that the embedding
is a genuine popcount). -/
theorem HammingDistance_eq_zero (a b : Nat) (h : HammingDistance a b = 0) :
    a = b := by
  unfold HammingDistance at h
  rw [hammingLoop_eq_bitCount] at h
  by_cases hx : a ^^^ b = 0
  · exact Nat.xor_eq_zero.mp hx
  · exact absurd h (by have := bitCount_pos _ hx; omega)

/-! ## BK-tree (`bkTree`, perceptual.go 97-191, and `BKTree`, bktree.go)

The Go `children map[int]*bkNode` (edge label = exact observed distance) is
modelled as an association list with distinct keys; `insert` descends to the
child at the exact distance or attaches a new leaf, `searchNode` records the
node when `d ≤ threshold` and descends only into children whose edge label
lies in `[d - threshold, d + threshold]` (the Go `minDist` clamp at 0 is
Nat truncated subtraction). -/

mutual
/-- A BK-tree node: fingerprint, associated item index, children. -/
inductive BKNode where
  | node (hash : Nat) (index : Nat) (children : BKChildren)
/-- Children of a BK-tree node: edge label (distance) to child subtree. -/
inductive BKChildren where
  | nil
  | cons (dist : Nat) (child : BKNode) (rest : BKChildren)
end

mutual
/-- `bkTree.insert` descent: at each node compute the distance from the new
hash to the node's hash; descend into the child at that edge label if it
exists, otherwise attach a new leaf there. -/
def bkInsertNode : BKNode → Nat → Nat → BKNode
  | .node nh ni cs, h, i =>
      .node nh ni (bkInsertChildren cs (HammingDistance h nh) h i)
/-- Walk the children association list looking for edge label `d`. -/
def bkInsertChildren : BKChildren → Nat → Nat → Nat → BKChildren
  | .nil, d, h, i => .cons d (.node h i .nil) .nil
  | .cons cd c rest, d, h, i =>
      if cd = d then .cons cd (bkInsertNode c h i) rest
      else .cons cd c (bkInsertChildren rest d h i)
end

mutual
/-- `bkTree.searchNode`: record the node's index when within the threshold,
then recurse into children whose edge label is within
`[d - threshold, d + threshold]`. -/
def bkSearchNode : BKNode → Nat → Nat → List Nat
  | .node nh ni cs, q, t =>
      (if HammingDistance q nh ≤ t then [ni] else []) ++
        bkSearchChildren cs q t (HammingDistance q nh)
/-- Children loop of `searchNode`; `d` is the distance from the query to the
parent node's hash. -/
def bkSearchChildren : BKChildren → Nat → Nat → Nat → List Nat
  | .nil, _, _, _ => []
  | .cons cd c rest, q, t, d =>
      (if d - t ≤ cd ∧ cd ≤ d + t then bkSearchNode c q t else []) ++
        bkSearchChildren rest q t d
end

/-- The BK-tree: `root` is nil until the first insertion (the distance
function field of the Go struct is always `hash.HammingDistance` here). -/
structure BKTree where
  root : Option BKNode

/-- `bkTree.insert` (perceptual.go 119-141). -/
def bkTreeInsert (t : BKTree) (h i : Nat) : BKTree :=
  match t.root with
  | none => ⟨some (.node h i .nil)⟩
  | some r => ⟨some (bkInsertNode r h i)⟩

/-- `bkTree.findWithinDistance` (perceptual.go 145-153). -/
def bkFindWithinDistance (t : BKTree) (q : Nat) (threshold : Nat) : List Nat :=
  match t.root with
  | none => []
  | some r => bkSearchNode r q threshold

mutual
/-- All (hash, index) pairs stored in a subtree. -/
def bkMemNode : BKNode → List (Nat × Nat)
  | .node nh ni cs => (nh, ni) :: bkMemChildren cs
def bkMemChildren : BKChildren → List (Nat × Nat)
  | .nil => []
  | .cons _ c rest => bkMemNode c ++ bkMemChildren rest
end

mutual
/-- BK-tree structural invariant: every entry of the subtree hanging off an
edge labelled `cd` is at exact distance `cd` from the parent's hash. -/
def bkWfNode : BKNode → Bool
  | .node nh _ cs => bkWfChildren nh cs
def bkWfChildren : Nat → BKChildren → Bool
  | _, .nil => true
  | nh, .cons cd c rest =>
      bkWfNode c &&
        (bkMemNode c).all (fun p => HammingDistance p.1 nh == cd) &&
        bkWfChildren nh rest
end

mutual
theorem mem_bkInsertNode : ∀ (n : BKNode) (h i : Nat) (p : Nat × Nat),
    p ∈ bkMemNode (bkInsertNode n h i) ↔ p = (h, i) ∨ p ∈ bkMemNode n
  | .node nh ni cs, h, i, p => by
      simp only [bkInsertNode, bkMemNode, List.mem_cons]
      rw [mem_bkInsertChildren cs (HammingDistance h nh) h i p]
      tauto
theorem mem_bkInsertChildren : ∀ (cs : BKChildren) (d h i : Nat) (p : Nat × Nat),
    p ∈ bkMemChildren (bkInsertChildren cs d h i) ↔ p = (h, i) ∨ p ∈ bkMemChildren cs
  | .nil, d, h, i, p => by
      simp [bkInsertChildren, bkMemChildren, bkMemNode]
  | .cons cd c rest, d, h, i, p => by
      by_cases hd : cd = d
      · simp only [bkInsertChildren, if_pos hd, bkMemChildren, List.mem_append]
        rw [mem_bkInsertNode c h i p]
        tauto
      · simp only [bkInsertChildren, if_neg hd, bkMemChildren, List.mem_append]
        rw [mem_bkInsertChildren rest d h i p]
        tauto
end

mutual
/-- Search soundness: every recorded index belongs to a stored entry whose
hash is within the threshold of the query. -/
theorem bkSearchNode_sound : ∀ (n : BKNode) (q t i : Nat),
    i ∈ bkSearchNode n q t → ∃ h, (h, i) ∈ bkMemNode n ∧ HammingDistance q h ≤ t
  | .node nh ni cs, q, t, i => by
      simp only [bkSearchNode, List.mem_append, bkMemNode, List.mem_cons]
      intro hmem
      rcases hmem with hhere | hchild
      · by_cases hle : HammingDistance q nh ≤ t
        · rw [if_pos hle] at hhere
          simp at hhere
          subst hhere
          exact ⟨nh, Or.inl rfl, hle⟩
        · rw [if_neg hle] at hhere
          simp at hhere
      · obtain ⟨h, hm, hd⟩ := bkSearchChildren_sound cs q t (HammingDistance q nh) i hchild
        exact ⟨h, Or.inr hm, hd⟩
theorem bkSearchChildren_sound : ∀ (cs : BKChildren) (q t d i : Nat),
    i ∈ bkSearchChildren cs q t d →
      ∃ h, (h, i) ∈ bkMemChildren cs ∧ HammingDistance q h ≤ t
  | .nil, q, t, d, i => by
      simp [bkSearchChildren]
  | .cons cd c rest, q, t, d, i => by
      simp only [bkSearchChildren, List.mem_append, bkMemChildren]
      intro hmem
      rcases hmem with hc | hrest
      · by_cases hband : d - t ≤ cd ∧ cd ≤ d + t
        · rw [if_pos hband] at hc
          obtain ⟨h, hm, hd⟩ := bkSearchNode_sound c q t i hc
          exact ⟨h, by simp [List.mem_append, hm], hd⟩
        · rw [if_neg hband] at hc
          simp at hc
      · obtain ⟨h, hm, hd⟩ := bkSearchChildren_sound rest q t d i hrest
        exact ⟨h, by simp [List.mem_append, hm], hd⟩
end

mutual
/-- Search completeness: the triangle-inequality pruning never misses a
stored entry within the threshold, in a well-formed tree. -/
theorem bkSearchNode_complete : ∀ (n : BKNode) (q t h i : Nat),
    bkWfNode n = true → (h, i) ∈ bkMemNode n → HammingDistance q h ≤ t →
      i ∈ bkSearchNode n q t
  | .node nh ni cs, q, t, h, i => by
      intro hwf hmem hle
      simp only [bkMemNode, List.mem_cons] at hmem
      simp only [bkSearchNode, List.mem_append]
      rcases hmem with hself | hchild
      · injection hself with h1 h2
        left
        rw [h1] at hle
        rw [if_pos hle]
        simp [h2]
      · right
        have hwfc : bkWfChildren nh cs = true := by
          simpa [bkWfNode] using hwf
        exact bkSearchChildren_complete cs q t nh h i hwfc hchild hle
theorem bkSearchChildren_complete : ∀ (cs : BKChildren) (q t nh h i : Nat),
    bkWfChildren nh cs = true → (h, i) ∈ bkMemChildren cs →
      HammingDistance q h ≤ t →
      i ∈ bkSearchChildren cs q t (HammingDistance q nh)
  | .nil, q, t, nh, h, i => by
      intro _ hmem
      simp [bkMemChildren] at hmem
  | .cons cd c rest, q, t, nh, h, i => by
      intro hwf hmem hle
      simp only [bkWfChildren, Bool.and_eq_true, List.all_eq_true] at hwf
      obtain ⟨⟨hwfc, hdists⟩, hwfrest⟩ := hwf
      simp only [bkMemChildren, List.mem_append] at hmem
      simp only [bkSearchChildren, List.mem_append]
      rcases hmem with hc | hrest
      · left
        have hhd : HammingDistance h nh = cd := by
          have h0 := hdists (h, i) hc
          simpa using h0
        have hband : HammingDistance q nh - t ≤ cd ∧ cd ≤ HammingDistance q nh + t := by
          constructor
          · have h1 : HammingDistance q nh ≤ HammingDistance q h + HammingDistance h nh :=
              HammingDistance_triangle q nh h
            omega
          · have h2 : HammingDistance h nh ≤ HammingDistance h q + HammingDistance q nh :=
              HammingDistance_triangle h nh q
            have h3 : HammingDistance h q = HammingDistance q h := HammingDistance_comm h q
            omega
        rw [if_pos hband]
        exact bkSearchNode_complete c q t h i hwfc hc hle
      · right
        exact bkSearchChildren_complete rest q t nh h i hwfrest hrest hle
end

mutual
/-- Insertion preserves the BK-tree invariant. -/
theorem bkWf_insertNode : ∀ (n : BKNode) (h i : Nat),
    bkWfNode n = true → bkWfNode (bkInsertNode n h i) = true
  | .node nh ni cs, h, i => by
      intro hwf
      simp only [bkWfNode] at hwf ⊢
      simp only [bkInsertNode]
      exact bkWf_insertChildren cs nh (HammingDistance h nh) h i rfl hwf
theorem bkWf_insertChildren : ∀ (cs : BKChildren) (nh d h i : Nat),
    d = HammingDistance h nh → bkWfChildren nh cs = true →
      bkWfChildren nh (bkInsertChildren cs d h i) = true
  | .nil, nh, d, h, i => by
      intro hd _
      simp [bkInsertChildren, bkWfChildren, bkWfNode, bkMemNode, bkMemChildren, hd]
  | .cons cd c rest, nh, d, h, i => by
      intro hd hwf
      simp only [bkWfChildren, Bool.and_eq_true, List.all_eq_true] at hwf
      obtain ⟨⟨hwfc, hdists⟩, hwfrest⟩ := hwf
      by_cases hcd : cd = d
      · simp only [bkInsertChildren, if_pos hcd, bkWfChildren, Bool.and_eq_true,
          List.all_eq_true]
        refine ⟨⟨bkWf_insertNode c h i hwfc, ?_⟩, hwfrest⟩
        intro p hp
        rw [mem_bkInsertNode c h i p] at hp
        rcases hp with hp | hp
        · subst hp
          simp [hcd, hd]
        · exact hdists p hp
      · simp only [bkInsertChildren, if_neg hcd, bkWfChildren, Bool.and_eq_true,
          List.all_eq_true]
        exact ⟨⟨hwfc, hdists⟩, bkWf_insertChildren rest nh d h i hd hwfrest⟩
end

/-- Entries of the tree (empty when the root is nil). -/
def bkTreeMem (t : BKTree) : List (Nat × Nat) :=
  match t.root with
  | none => []
  | some r => bkMemNode r

/-- Tree-level invariant. -/
def bkTreeWf (t : BKTree) : Bool :=
  match t.root with
  | none => true
  | some r => bkWfNode r

theorem bkTreeMem_insert (t : BKTree) (h i : Nat) (p : Nat × Nat) :
    p ∈ bkTreeMem (bkTreeInsert t h i) ↔ p = (h, i) ∨ p ∈ bkTreeMem t := by
  cases t with
  | mk root =>
    cases root with
    | none => simp [bkTreeInsert, bkTreeMem, bkMemNode, bkMemChildren]
    | some r =>
      simp only [bkTreeInsert, bkTreeMem]
      exact mem_bkInsertNode r h i p

theorem bkTreeWf_insert (t : BKTree) (h i : Nat) (hwf : bkTreeWf t = true) :
    bkTreeWf (bkTreeInsert t h i) = true := by
  cases t with
  | mk root =>
    cases root with
    | none => simp [bkTreeInsert, bkTreeWf, bkWfNode, bkWfChildren]
    | some r =>
      simp only [bkTreeInsert, bkTreeWf] at hwf ⊢
      exact bkWf_insertNode r h i hwf

/-- `findWithinDistance` on a well-formed tree returns exactly the indices of
stored entries within the threshold. -/
theorem bkFindWithinDistance_iff (t : BKTree) (q r i : Nat)
    (hwf : bkTreeWf t = true) :
    i ∈ bkFindWithinDistance t q r ↔
      ∃ h, (h, i) ∈ bkTreeMem t ∧ HammingDistance q h ≤ r := by
  cases t with
  | mk root =>
    cases root with
    | none => simp [bkFindWithinDistance, bkTreeMem]
    | some nd =>
      simp only [bkFindWithinDistance, bkTreeMem]
      simp only [bkTreeWf] at hwf
      constructor
      · exact bkSearchNode_sound nd q r i
      · rintro ⟨h, hm, hd⟩
        exact bkSearchNode_complete nd q r h i hwf hm hd

/-- Folding a sequence of insertions into an initially empty tree. -/
def bkInsertAll (ps : List (Nat × Nat)) : BKTree :=
  ps.foldl (fun t p => bkTreeInsert t p.1 p.2) ⟨none⟩

theorem bkInsertAll_wf_mem (ps : List (Nat × Nat)) :
    bkTreeWf (bkInsertAll ps) = true ∧
      (∀ p, p ∈ bkTreeMem (bkInsertAll ps) ↔ p ∈ ps) := by
  suffices h : ∀ (t : BKTree), bkTreeWf t = true →
      bkTreeWf (ps.foldl (fun t p => bkTreeInsert t p.1 p.2) t) = true ∧
      (∀ p, p ∈ bkTreeMem (ps.foldl (fun t p => bkTreeInsert t p.1 p.2) t) ↔
        p ∈ ps ∨ p ∈ bkTreeMem t) by
    obtain ⟨h1, h2⟩ := h ⟨none⟩ rfl
    refine ⟨h1, fun p => ?_⟩
    unfold bkInsertAll
    rw [h2 p]
    simp [bkTreeMem]
  induction ps with
  | nil =>
    intro t hwf
    exact ⟨hwf, fun p => by simp⟩
  | cons hd tl ih =>
    intro t hwf
    simp only [List.foldl_cons]
    obtain ⟨hwf2, hmem2⟩ := ih (bkTreeInsert t hd.1 hd.2) (bkTreeWf_insert t hd.1 hd.2 hwf)
    refine ⟨hwf2, fun p => ?_⟩
    rw [hmem2 p, bkTreeMem_insert t hd.1 hd.2 p]
    simp only [List.mem_cons, Prod.mk.eta]
    tauto

/-! ## Union-Find (`unionFind`, perceptual.go 60-95)

Go source: `parent`/`rank` slices, recursive `find` with path compression
(`uf.parent[x] = uf.find(uf.parent[x])`), `union` by rank.  The mutation is
modelled by explicit state passing; the recursion of `find` is modelled with
fuel `parent.length`, which is proved sufficient under the forest invariant
(ranks strictly increase along parent chains, so chains visit distinct
nodes). -/

structure UnionFind where
  parent : List Nat
  rank : List Nat

/-- `newUnionFind(n)`: `parent[i] = i`, `rank[i] = 0`. -/
def newUnionFind (n : Nat) : UnionFind :=
  ⟨List.range n, List.replicate n 0⟩

/-- One parent-pointer lookup (out-of-range indices behave as roots; the Go
code never indexes out of range, cf. spec §4.2). -/
def parStep (par : List Nat) (x : Nat) : Nat := par.getD x x

/-- A root: its parent pointer is itself. -/
def IsRoot (par : List Nat) (x : Nat) : Prop := parStep par x = x

instance (par : List Nat) (x : Nat) : Decidable (IsRoot par x) := by
  unfold IsRoot; infer_instance

/-- The recursion of `unionFind.find` with path compression, fuelled. -/
def ufFindAux : Nat → UnionFind → Nat → UnionFind × Nat
  | 0, uf, x => (uf, x)
  | fuel + 1, uf, x =>
      if parStep uf.parent x = x then (uf, x)
      else
        let r := ufFindAux fuel uf (parStep uf.parent x)
        (⟨r.1.parent.set x r.2, r.1.rank⟩, r.2)

/-- `unionFind.find` (path compression included). -/
def ufFind (uf : UnionFind) (x : Nat) : UnionFind × Nat :=
  ufFindAux uf.parent.length uf x

/-- Pure (compression-free) root lookup, fuelled; reference function for the
correctness proofs. -/
def rootAux : Nat → List Nat → Nat → Nat
  | 0, _, x => x
  | fuel + 1, par, x =>
      if parStep par x = x then x else rootAux fuel par (parStep par x)

/-- The root of `x` in the parent forest. -/
def rootD (par : List Nat) (x : Nat) : Nat := rootAux par.length par x

/-- Forest invariant: ranks and parents have equal length, parent pointers of
in-range nodes stay in range, and the rank strictly increases along any
non-trivial parent edge. -/
def UFInv (uf : UnionFind) : Prop :=
  uf.rank.length = uf.parent.length ∧
  (∀ x, x < uf.parent.length → parStep uf.parent x < uf.parent.length) ∧
  (∀ x, x < uf.parent.length → parStep uf.parent x ≠ x →
    uf.rank.getD x 0 < uf.rank.getD (parStep uf.parent x) 0)

theorem parStep_of_ge (par : List Nat) (x : Nat) (h : par.length ≤ x) :
    parStep par x = x :=
  List.getD_eq_default par x h

theorem parStep_set_self (par : List Nat) (x r : Nat) (h : x < par.length) :
    parStep (par.set x r) x = r := by
  unfold parStep
  simp [List.getD_eq_getElem?_getD, List.getElem?_set_self, h]

theorem parStep_set_ne (par : List Nat) (x r y : Nat) (h : y ≠ x) :
    parStep (par.set x r) y = parStep par y := by
  unfold parStep
  simp [List.getD_eq_getElem?_getD, List.getElem?_set_ne (Ne.symm h)]

theorem isRoot_of_ge (par : List Nat) (x : Nat) (h : par.length ≤ x) :
    IsRoot par x :=
  parStep_of_ge par x h

/-- Iterating the parent pointer from a root stays put. -/
theorem iterate_of_isRoot (par : List Nat) (x : Nat) (h : IsRoot par x) (k : Nat) :
    (parStep par)^[k] x = x := by
  induction k with
  | zero => rfl
  | succ k ih => rw [Function.iterate_succ_apply, h, ih]

theorem rootAux_of_isRoot (f : Nat) (par : List Nat) (x : Nat) (h : IsRoot par x) :
    rootAux f par x = x := by
  cases f with
  | zero => rfl
  | succ f =>
    have h2 : parStep par x = x := h
    simp [rootAux, h2]

/-- If the `k`-th iterate is a root and the fuel is at least `k`, `rootAux`
returns that iterate. -/
theorem rootAux_eq_iterate (k : Nat) :
    ∀ (f : Nat) (par : List Nat) (x : Nat), k ≤ f →
      IsRoot par ((parStep par)^[k] x) → rootAux f par x = (parStep par)^[k] x := by
  induction k with
  | zero =>
    intro f par x _ hroot
    exact (rootAux_of_isRoot f par x hroot).symm ▸ rfl
  | succ k ih =>
    intro f par x hle hroot
    by_cases hx : IsRoot par x
    · rw [rootAux_of_isRoot f par x hx, iterate_of_isRoot par x hx]
    · cases f with
      | zero => omega
      | succ f =>
        have hx2 : ¬ parStep par x = x := hx
        simp only [rootAux, if_neg hx2]
        rw [Function.iterate_succ_apply] at hroot
        rw [Function.iterate_succ_apply]
        exact ih f par (parStep par x) (by omega) hroot

/-- Parent iterates of in-range nodes stay in range. -/
theorem iterate_lt (uf : UnionFind) (hInv : UFInv uf) (x : Nat)
    (hx : x < uf.parent.length) (k : Nat) :
    (parStep uf.parent)^[k] x < uf.parent.length := by
  induction k with
  | zero => exact hx
  | succ k ih =>
    rw [Function.iterate_succ_apply']
    exact hInv.2.1 _ ih

/-- Rank strictly increases from `x` to any distinct parent iterate. -/
theorem rank_lt_iterate (uf : UnionFind) (hInv : UFInv uf) (x : Nat)
    (hx : x < uf.parent.length) :
    ∀ k, (parStep uf.parent)^[k] x ≠ x →
      uf.rank.getD x 0 < uf.rank.getD ((parStep uf.parent)^[k] x) 0 := by
  intro k
  induction k with
  | zero => intro h; exact absurd rfl h
  | succ k ih =>
    intro hne
    rw [Function.iterate_succ_apply'] at hne ⊢
    set z := (parStep uf.parent)^[k] x with hz
    by_cases hzx : z = x
    · rw [hzx] at hne ⊢
      exact hInv.2.2 x hx hne
    · have h1 := ih hzx
      have hzlt : z < uf.parent.length := iterate_lt uf hInv x hx k
      by_cases hzr : IsRoot uf.parent z
      · rw [hzr] at hne ⊢
        exact h1
      · have h2 := hInv.2.2 z hzlt hzr
        omega

/-- Along a chain whose first `k` nodes are all non-roots, the rank strictly
increases after `k` steps. -/
theorem rank_chain_strict (uf : UnionFind) (hInv : UFInv uf) (y : Nat)
    (hy : y < uf.parent.length) :
    ∀ k, 1 ≤ k →
      (∀ m, m < k → ¬ IsRoot uf.parent ((parStep uf.parent)^[m] y)) →
      uf.rank.getD y 0 < uf.rank.getD ((parStep uf.parent)^[k] y) 0 := by
  intro k
  induction k with
  | zero => omega
  | succ m ih =>
    intro _ hnr
    cases Nat.eq_zero_or_pos m with
    | inl hm0 =>
      subst hm0
      have h0 : ¬ IsRoot uf.parent y := by
        have := hnr 0 (by omega)
        simpa using this
      simpa using hInv.2.2 y hy h0
    | inr hmpos =>
      have hprev := ih hmpos (fun l hl => hnr l (by omega))
      have hmr : ¬ IsRoot uf.parent ((parStep uf.parent)^[m] y) := hnr m (by omega)
      have hmlt : (parStep uf.parent)^[m] y < uf.parent.length :=
        iterate_lt uf hInv y hy m
      have hstep := hInv.2.2 _ hmlt hmr
      rw [Function.iterate_succ_apply']
      omega

/-- Every in-range node reaches a root in fewer than `n` steps: otherwise the
first `n + 1` parent iterates would have strictly increasing ranks, hence be
pairwise distinct inside `{0, ..., n-1}`. -/
theorem exists_root_iterate (uf : UnionFind) (hInv : UFInv uf) (x : Nat)
    (hx : x < uf.parent.length) :
    ∃ k, k < uf.parent.length ∧ IsRoot uf.parent ((parStep uf.parent)^[k] x) := by
  by_contra hcon
  push_neg at hcon
  set n := uf.parent.length with hn
  set g := fun k => (parStep uf.parent)^[k] x with hg
  have hrank : ∀ i j, i < j → j ≤ n → uf.rank.getD (g i) 0 < uf.rank.getD (g j) 0 := by
    intro i j hij hjn
    have hgi : g i < n := iterate_lt uf hInv x hx i
    have hiter : g j = (parStep uf.parent)^[j - i] (g i) := by
      simp only [hg]
      rw [← Function.iterate_add_apply]
      congr 1
      omega
    rw [hiter]
    apply rank_chain_strict uf hInv (g i) hgi (j - i) (by omega)
    intro m hm
    have : (parStep uf.parent)^[m] (g i) = g (i + m) := by
      simp only [hg]
      rw [← Function.iterate_add_apply]
      congr 1
      omega
    rw [this]
    exact hcon (i + m) (by omega)
  have hinj : Set.InjOn g (Finset.range (n + 1)) := by
    intro i hi j hj hij
    by_contra hne
    rcases Nat.lt_or_ge i j with h | h
    · have := hrank i j h (by simpa using Nat.lt_succ_iff.mp (by simpa using hj))
      rw [hij] at this
      omega
    · have hji : j < i := by omega
      have := hrank j i hji (by simpa using Nat.lt_succ_iff.mp (by simpa using hi))
      rw [hij] at this
      omega
  have hmaps : ∀ k ∈ Finset.range (n + 1), g k ∈ Finset.range n := by
    intro k _
    simpa using iterate_lt uf hInv x hx k
  have hcard := Finset.card_le_card_of_injOn g hmaps hinj
  simp at hcard

/-- `Reach par x r`: following parent pointers from `x` arrives at the root
`r`. -/
def Reach (par : List Nat) (x r : Nat) : Prop :=
  ∃ k, (parStep par)^[k] x = r ∧ IsRoot par r

theorem reach_of_isRoot (par : List Nat) (x : Nat) (h : IsRoot par x) :
    Reach par x x :=
  ⟨0, rfl, h⟩

theorem reach_parStep (par : List Nat) (x r : Nat)
    (h : Reach par (parStep par x) r) : Reach par x r := by
  obtain ⟨k, hk, hr⟩ := h
  exact ⟨k + 1, by rw [Function.iterate_succ_apply]; exact hk, hr⟩

/-- A chain stabilizes at its first root, so the reached root is unique. -/
theorem reach_unique (par : List Nat) (x r1 r2 : Nat)
    (h1 : Reach par x r1) (h2 : Reach par x r2) : r1 = r2 := by
  obtain ⟨k1, hk1, hr1⟩ := h1
  obtain ⟨k2, hk2, hr2⟩ := h2
  rcases Nat.le_total k1 k2 with h | h
  · have : (parStep par)^[k2] x = (parStep par)^[k2 - k1] ((parStep par)^[k1] x) := by
      rw [← Function.iterate_add_apply]
      congr 1
      omega
    rw [hk1, iterate_of_isRoot par r1 hr1] at this
    rw [this] at hk2
    exact hk2
  · have : (parStep par)^[k1] x = (parStep par)^[k1 - k2] ((parStep par)^[k2] x) := by
      rw [← Function.iterate_add_apply]
      congr 1
      omega
    rw [hk2, iterate_of_isRoot par r2 hr2] at this
    rw [this] at hk1
    exact hk1.symm

/-- Under the forest invariant every node reaches `rootD`. -/
theorem reach_rootD (uf : UnionFind) (hInv : UFInv uf) (x : Nat) :
    Reach uf.parent x (rootD uf.parent x) := by
  by_cases hx : x < uf.parent.length
  · obtain ⟨k, hk, hroot⟩ := exists_root_iterate uf hInv x hx
    have := rootAux_eq_iterate k uf.parent.length uf.parent x (by omega) hroot
    unfold rootD
    rw [this]
    exact ⟨k, rfl, hroot⟩
  · have hroot : IsRoot uf.parent x := isRoot_of_ge _ _ (by omega)
    unfold rootD
    rw [rootAux_of_isRoot _ _ _ hroot]
    exact reach_of_isRoot _ _ hroot

theorem rootD_eq_of_reach (uf : UnionFind) (hInv : UFInv uf) (x r : Nat)
    (h : Reach uf.parent x r) : rootD uf.parent x = r :=
  reach_unique uf.parent x _ r (reach_rootD uf hInv x) h

theorem rootD_isRoot (uf : UnionFind) (hInv : UFInv uf) (x : Nat) :
    IsRoot uf.parent (rootD uf.parent x) :=
  (reach_rootD uf hInv x).choose_spec.2

theorem rootD_parStep (uf : UnionFind) (hInv : UFInv uf) (x : Nat) :
    rootD uf.parent (parStep uf.parent x) = rootD uf.parent x := by
  have h1 := reach_rootD uf hInv (parStep uf.parent x)
  exact (rootD_eq_of_reach uf hInv x _ (reach_parStep _ _ _ h1)).symm

theorem rootD_of_isRoot (par : List Nat) (x : Nat) (h : IsRoot par x) :
    rootD par x = x :=
  rootAux_of_isRoot _ _ _ h

/-- Writing an entry that no prefix of the chain reads does not change the
iterates. -/
theorem iterate_set_congr (par : List Nat) (x b y : Nat) (k : Nat)
    (h : ∀ m, m < k → (parStep par)^[m] y ≠ x) :
    (parStep (par.set x b))^[k] y = (parStep par)^[k] y := by
  induction k with
  | zero => rfl
  | succ k ih =>
    rw [Function.iterate_succ_apply', Function.iterate_succ_apply',
        ih (fun m hm => h m (by omega))]
    exact parStep_set_ne par x b _ (h k (by omega))

/-- Path compression (`parent[x] = root of x`) does not change any root. -/
theorem reach_set_compress (par : List Nat) (x b y r : Nat)
    (hx : x < par.length) (hxb : Reach par x b) (hy : Reach par y r) :
    Reach (par.set x b) y r := by
  obtain ⟨k, hk, hroot⟩ := hy
  by_cases hrx : r = x
  · -- y's root is x itself; then b = x and the write is trivial on roots.
    subst hrx
    have hbr : b = r := by
      have h0 : Reach par r r := reach_of_isRoot _ _ hroot
      exact (reach_unique par r b r (by exact hxb) h0)
    have hex : ∃ m, (parStep par)^[m] y = r := ⟨k, hk⟩
    have hl := Nat.find_spec hex
    have hmin : ∀ m, m < Nat.find hex → (parStep par)^[m] y ≠ r :=
      fun m hm => Nat.find_min hex hm
    refine ⟨Nat.find hex, ?_, ?_⟩
    · rw [iterate_set_congr par r b y (Nat.find hex) hmin]
      exact hl
    · unfold IsRoot
      rw [parStep_set_self par r b hx, hbr]
  · by_cases hvisit : ∃ m, (parStep par)^[m] y = x
    · -- the chain passes through x and continues to r; since b is x's root,
      -- r = b, and the shortened chain reaches it directly.
      have hl := Nat.find_spec hvisit
      have hmin : ∀ m, m < Nat.find hvisit → (parStep par)^[m] y ≠ x :=
        fun m hm => Nat.find_min hvisit hm
      set l := Nat.find hvisit with hldef
      have hlk : l ≤ k := by
        by_contra hgt
        push_neg at hgt
        have : (parStep par)^[l] y = (parStep par)^[l - k] ((parStep par)^[k] y) := by
          rw [← Function.iterate_add_apply]
          congr 1
          omega
        rw [hk, iterate_of_isRoot par r hroot] at this
        rw [this] at hl
        exact hrx hl
      have hxr : Reach par x r := by
        refine ⟨k - l, ?_, hroot⟩
        rw [← hl, ← Function.iterate_add_apply]
        have : k - l + l = k := by omega
        rw [this, hk]
      have hrb : r = b := reach_unique par x r b hxr hxb
      have hbx : b ≠ x := by
        intro hbxeq
        exact hrx (by rw [hrb, hbxeq])
      refine ⟨l + 1, ?_, ?_⟩
      · rw [Function.iterate_succ_apply', iterate_set_congr par x b y l hmin, hl,
            parStep_set_self par x b hx, hrb]
      · unfold IsRoot
        rw [parStep_set_ne par x b r (by omega), hrb]
        exact hxb.choose_spec.2
    · push_neg at hvisit
      refine ⟨k, ?_, ?_⟩
      · rw [iterate_set_congr par x b y k (fun m _ => hvisit m), hk]
      · unfold IsRoot
        rw [parStep_set_ne par x b r hrx]
        exact hroot

/-- Linking a root `x` under a different root `b` redirects exactly the
chains ending at `x`. -/
theorem reach_set_link (par : List Nat) (x b y r : Nat)
    (hx : x < par.length) (hxroot : IsRoot par x) (hbroot : IsRoot par b)
    (hbx : b ≠ x) (hy : Reach par y r) :
    Reach (par.set x b) y (if r = x then b else r) := by
  obtain ⟨k, hk, hroot⟩ := hy
  by_cases hrx : r = x
  · rw [if_pos hrx]
    subst hrx
    have hex : ∃ m, (parStep par)^[m] y = r := ⟨k, hk⟩
    have hl := Nat.find_spec hex
    have hmin : ∀ m, m < Nat.find hex → (parStep par)^[m] y ≠ r :=
      fun m hm => Nat.find_min hex hm
    refine ⟨Nat.find hex + 1, ?_, ?_⟩
    · rw [Function.iterate_succ_apply', iterate_set_congr par r b y _ hmin, hl,
          parStep_set_self par r b hx]
    · unfold IsRoot
      rw [parStep_set_ne par r b b hbx]
      exact hbroot
  · rw [if_neg hrx]
    have hvisit : ∀ m, (parStep par)^[m] y ≠ x := by
      intro m hm
      rcases Nat.le_total m k with h | h
      · have : (parStep par)^[k] y = (parStep par)^[k - m] ((parStep par)^[m] y) := by
          rw [← Function.iterate_add_apply]
          congr 1
          omega
        rw [hm, iterate_of_isRoot par x hxroot] at this
        rw [hk] at this
        exact hrx this
      · have : (parStep par)^[m] y = (parStep par)^[m - k] ((parStep par)^[k] y) := by
          rw [← Function.iterate_add_apply]
          congr 1
          omega
        rw [hk, iterate_of_isRoot par r hroot] at this
        rw [this] at hm
        exact hrx hm
    refine ⟨k, ?_, ?_⟩
    · rw [iterate_set_congr par x b y k (fun m _ => hvisit m), hk]
    · unfold IsRoot
      rw [parStep_set_ne par x b r hrx]
      exact hroot

/-- Redirecting `x` to its own root keeps the forest invariant. -/
theorem setRoot_inv (uf : UnionFind) (hInv : UFInv uf) (x b : Nat)
    (hx : x < uf.parent.length) (hb : rootD uf.parent x = b) (hbx : b ≠ x) :
    UFInv ⟨uf.parent.set x b, uf.rank⟩ := by
  obtain ⟨k, hk, hroot⟩ := hb ▸ reach_rootD uf hInv x
  have hblt : b < uf.parent.length := by
    rw [← hk]
    exact iterate_lt uf hInv x hx k
  have hrankx : uf.rank.getD x 0 < uf.rank.getD b 0 := by
    rw [← hk]
    apply rank_lt_iterate uf hInv x hx k
    rw [hk]
    exact hbx
  refine ⟨by simpa using hInv.1, ?_, ?_⟩
  · intro y hy
    simp only [List.length_set] at hy
    by_cases hyx : y = x
    · subst hyx
      rw [parStep_set_self _ _ _ hx]
      simpa using hblt
    · rw [parStep_set_ne _ _ _ _ hyx]
      simpa using hInv.2.1 y hy
  · intro y hy
    simp only [List.length_set] at hy ⊢
    by_cases hyx : y = x
    · subst hyx
      rw [parStep_set_self _ _ _ hx]
      intro _
      exact hrankx
    · rw [parStep_set_ne _ _ _ _ hyx]
      exact hInv.2.2 y hy

/-- Full specification of the fuelled `find`: given enough fuel it returns
the root, keeps the ranks, the length, the invariant, and every node's
root. -/
theorem ufFindAux_spec : ∀ (f : Nat) (uf : UnionFind) (x : Nat), UFInv uf →
    (∃ k, k ≤ f ∧ IsRoot uf.parent ((parStep uf.parent)^[k] x)) →
    (ufFindAux f uf x).2 = rootD uf.parent x ∧
    (ufFindAux f uf x).1.rank = uf.rank ∧
    (ufFindAux f uf x).1.parent.length = uf.parent.length ∧
    UFInv (ufFindAux f uf x).1 ∧
    (∀ y, rootD (ufFindAux f uf x).1.parent y = rootD uf.parent y) := by
  intro f
  induction f with
  | zero =>
    intro uf x hInv hk
    obtain ⟨k, hk0, hroot⟩ := hk
    have hkz : k = 0 := by omega
    subst hkz
    have hrx : IsRoot uf.parent x := hroot
    exact ⟨(rootD_of_isRoot _ _ hrx).symm, rfl, rfl, hInv, fun y => rfl⟩
  | succ f ih =>
    intro uf x hInv hk
    by_cases hx : IsRoot uf.parent x
    · have hx2 : parStep uf.parent x = x := hx
      have heq : ufFindAux (f + 1) uf x = (uf, x) := by
        simp [ufFindAux, hx2]
      rw [heq]
      exact ⟨(rootD_of_isRoot _ _ hx).symm, rfl, rfl, hInv, fun y => rfl⟩
    · have hx2 : ¬ parStep uf.parent x = x := hx
      have hxlt : x < uf.parent.length := by
        by_contra hge
        exact hx (isRoot_of_ge _ _ (by omega))
      have hknext : ∃ k, k ≤ f ∧
          IsRoot uf.parent ((parStep uf.parent)^[k] (parStep uf.parent x)) := by
        obtain ⟨k, hkf, hroot⟩ := hk
        cases k with
        | zero => exact absurd hroot hx
        | succ k =>
          rw [Function.iterate_succ_apply] at hroot
          exact ⟨k, by omega, hroot⟩
      obtain ⟨hr2, hrank, hlen, hinv2, hpres⟩ := ih uf (parStep uf.parent x) hInv hknext
      set r := ufFindAux f uf (parStep uf.parent x) with hrdef
      have heq : ufFindAux (f + 1) uf x = (⟨r.1.parent.set x r.2, r.1.rank⟩, r.2) := by
        simp [ufFindAux, hx2, ← hrdef]
      rw [heq]
      have hroots : r.2 = rootD uf.parent x := by
        rw [hr2, rootD_parStep uf hInv x]
      have hrootr1 : rootD r.1.parent x = r.2 := by
        rw [hpres x, hroots]
      have hxlt2 : x < r.1.parent.length := by omega
      have hr2nex : r.2 ≠ x := by
        rw [hroots]
        intro heq
        have := rootD_isRoot uf hInv x
        rw [heq] at this
        exact hx this
      have hinv3 : UFInv ⟨r.1.parent.set x r.2, r.1.rank⟩ :=
        setRoot_inv r.1 hinv2 x r.2 hxlt2 hrootr1 hr2nex
      refine ⟨hroots, by simpa using hrank, by simpa using hlen, hinv3, ?_⟩
      intro y
      have hreach : Reach r.1.parent y (rootD r.1.parent y) := reach_rootD r.1 hinv2 y
      have hreachx : Reach r.1.parent x r.2 := by
        rw [← hrootr1]
        exact reach_rootD r.1 hinv2 x
      have hreach2 : Reach (r.1.parent.set x r.2) y (rootD r.1.parent y) :=
        reach_set_compress r.1.parent x r.2 y _ hxlt2 hreachx hreach
      have := rootD_eq_of_reach ⟨r.1.parent.set x r.2, r.1.rank⟩ hinv3 y _ hreach2
      simp only at this
      rw [this, hpres y]

/-- `find` specification at the standard fuel. -/
theorem ufFind_spec (uf : UnionFind) (x : Nat) (hInv : UFInv uf) :
    (ufFind uf x).2 = rootD uf.parent x ∧
    (ufFind uf x).1.rank = uf.rank ∧
    (ufFind uf x).1.parent.length = uf.parent.length ∧
    UFInv (ufFind uf x).1 ∧
    (∀ y, rootD (ufFind uf x).1.parent y = rootD uf.parent y) := by
  apply ufFindAux_spec uf.parent.length uf x hInv
  by_cases hx : x < uf.parent.length
  · obtain ⟨k, hk, hroot⟩ := exists_root_iterate uf hInv x hx
    exact ⟨k, by omega, hroot⟩
  · refine ⟨0, by omega, ?_⟩
    simp only [Function.iterate_zero, id]
    exact isRoot_of_ge _ _ (by omega)

theorem rootD_lt (uf : UnionFind) (hInv : UFInv uf) (x : Nat)
    (hx : x < uf.parent.length) : rootD uf.parent x < uf.parent.length := by
  obtain ⟨k, hk, _⟩ := reach_rootD uf hInv x
  rw [← hk]
  exact iterate_lt uf hInv x hx k

/-- `unionFind.union` (perceptual.go 82-95): find both roots, return if they
agree, otherwise swap so the higher-ranked root wins, link, and bump the
rank on ties. -/
def ufUnion (uf : UnionFind) (x y : Nat) : UnionFind :=
  let fx := ufFind uf x
  let fy := ufFind fx.1 y
  let uf2 := fy.1
  if fx.2 = fy.2 then uf2
  else
    -- `px, py = py, px` swap: `a` is the winning root, `b` the demoted one
    let a := if uf2.rank.getD fx.2 0 < uf2.rank.getD fy.2 0 then fy.2 else fx.2
    let b := if uf2.rank.getD fx.2 0 < uf2.rank.getD fy.2 0 then fx.2 else fy.2
    let uf3 : UnionFind := ⟨uf2.parent.set b a, uf2.rank⟩
    if uf3.rank.getD a 0 = uf3.rank.getD b 0 then
      ⟨uf3.parent, uf3.rank.set a (uf3.rank.getD a 0 + 1)⟩
    else uf3

theorem getD_set_self0 (l : List Nat) (i a : Nat) (h : i < l.length) :
    (l.set i a).getD i 0 = a := by
  simp [List.getD_eq_getElem?_getD, List.getElem?_set_self, h]

theorem getD_set_ne0 (l : List Nat) (i a j : Nat) (h : j ≠ i) :
    (l.set i a).getD j 0 = l.getD j 0 := by
  simp [List.getD_eq_getElem?_getD, List.getElem?_set_ne (Ne.symm h)]

/-- Linking root `b` below root `a` (with the rank bookkeeping of `union`)
keeps the forest invariant. -/
theorem link_inv (uf2 : UnionFind) (hInv : UFInv uf2) (a b : Nat)
    (ha : a < uf2.parent.length) (hb : b < uf2.parent.length)
    (haroot : IsRoot uf2.parent a) (hab : a ≠ b)
    (hrank : uf2.rank.getD b 0 ≤ uf2.rank.getD a 0) :
    UFInv ⟨uf2.parent.set b a,
      if uf2.rank.getD a 0 = uf2.rank.getD b 0 then
        uf2.rank.set a (uf2.rank.getD a 0 + 1) else uf2.rank⟩ := by
  have hlenr : uf2.rank.length = uf2.parent.length := hInv.1
  set rk4 := if uf2.rank.getD a 0 = uf2.rank.getD b 0 then
      uf2.rank.set a (uf2.rank.getD a 0 + 1) else uf2.rank with hrk4
  have hr4b : rk4.getD b 0 = uf2.rank.getD b 0 := by
    by_cases hcond : uf2.rank.getD a 0 = uf2.rank.getD b 0
    · rw [hrk4, if_pos hcond]
      exact getD_set_ne0 _ _ _ _ (Ne.symm hab)
    · rw [hrk4, if_neg hcond]
  have hr4a : uf2.rank.getD a 0 ≤ rk4.getD a 0 := by
    by_cases hcond : uf2.rank.getD a 0 = uf2.rank.getD b 0
    · rw [hrk4, if_pos hcond, getD_set_self0 _ _ _ (by omega)]
      omega
    · rw [hrk4, if_neg hcond]
  have hr4t : ∀ t, t ≠ a → rk4.getD t 0 = uf2.rank.getD t 0 := by
    intro t ht
    by_cases hcond : uf2.rank.getD a 0 = uf2.rank.getD b 0
    · rw [hrk4, if_pos hcond]
      exact getD_set_ne0 _ _ _ _ ht
    · rw [hrk4, if_neg hcond]
  have hba : rk4.getD b 0 < rk4.getD a 0 := by
    by_cases hcond : uf2.rank.getD a 0 = uf2.rank.getD b 0
    · rw [hr4b]
      have := hr4a
      rw [hrk4, if_pos hcond, getD_set_self0 _ _ _ (by omega)]
      omega
    · rw [hr4b]
      have h2 : rk4.getD a 0 = uf2.rank.getD a 0 := by rw [hrk4, if_neg hcond]
      omega
  refine ⟨?_, ?_, ?_⟩
  · show rk4.length = (uf2.parent.set b a).length
    have : rk4.length = uf2.rank.length := by
      by_cases hcond : uf2.rank.getD a 0 = uf2.rank.getD b 0
      · rw [hrk4, if_pos hcond, List.length_set]
      · rw [hrk4, if_neg hcond]
    rw [this, List.length_set]
    exact hlenr
  · intro z hz
    simp only [List.length_set] at hz ⊢
    by_cases hzb : z = b
    · subst hzb
      rw [parStep_set_self _ _ _ hb]
      exact ha
    · rw [parStep_set_ne _ _ _ _ hzb]
      exact hInv.2.1 z hz
  · intro z hz
    simp only [List.length_set] at hz ⊢
    by_cases hzb : z = b
    · subst hzb
      rw [parStep_set_self _ _ _ hb]
      intro _
      exact hba
    · rw [parStep_set_ne _ _ _ _ hzb]
      intro hedge
      have hza : z ≠ a := by
        intro hzeq
        subst hzeq
        exact hedge haroot
      have hold := hInv.2.2 z hz hedge
      rw [hr4t z hza]
      by_cases hta : parStep uf2.parent z = a
      · rw [hta]
        rw [hta] at hold
        omega
      · rw [hr4t _ hta]
        exact hold

/-- `union` merges exactly the two components of its arguments and keeps the
invariant. -/
theorem ufUnion_spec (uf : UnionFind) (x y : Nat) (hInv : UFInv uf)
    (hx : x < uf.parent.length) (hy : y < uf.parent.length) :
    UFInv (ufUnion uf x y) ∧
    (ufUnion uf x y).parent.length = uf.parent.length ∧
    (∀ z w, rootD (ufUnion uf x y).parent z = rootD (ufUnion uf x y).parent w ↔
      (rootD uf.parent z = rootD uf.parent w ∨
       (rootD uf.parent z = rootD uf.parent x ∧ rootD uf.parent w = rootD uf.parent y) ∨
       (rootD uf.parent z = rootD uf.parent y ∧ rootD uf.parent w = rootD uf.parent x))) := by
  obtain ⟨hpx_eq, huf1_rank, huf1_len, huf1_inv, huf1_pres⟩ := ufFind_spec uf x hInv
  obtain ⟨hpy_eq, huf2_rank, huf2_len, huf2_inv, huf2_pres⟩ :=
    ufFind_spec (ufFind uf x).1 y huf1_inv
  set uf1 := (ufFind uf x).1 with huf1
  set px := (ufFind uf x).2 with hpx
  set uf2 := (ufFind uf1 y).1 with huf2
  set py := (ufFind uf1 y).2 with hpy
  have hpy_eq2 : py = rootD uf.parent y := by rw [hpy_eq, huf1_pres y]
  have huf2_pres2 : ∀ z, rootD uf2.parent z = rootD uf.parent z :=
    fun z => (huf2_pres z).trans (huf1_pres z)
  have huf2_len2 : uf2.parent.length = uf.parent.length := by omega
  have huf2_rank2 : uf2.rank = uf.rank := by rw [huf2_rank, huf1_rank]
  by_cases hpq : px = py
  · have heq : ufUnion uf x y = uf2 := by
      simp only [ufUnion, ← hpx, ← huf1, ← hpy, ← huf2]
      rw [if_pos hpq]
    rw [heq]
    have hxy : rootD uf.parent x = rootD uf.parent y := by
      rw [← hpx_eq, ← hpy_eq2, hpq]
    refine ⟨huf2_inv, huf2_len2, fun z w => ?_⟩
    rw [huf2_pres2 z, huf2_pres2 w]
    omega
  · have hpxlt : px < uf.parent.length := by
      rw [hpx_eq]
      exact rootD_lt uf hInv x hx
    have hpylt : py < uf.parent.length := by
      rw [hpy_eq2]
      exact rootD_lt uf hInv y hy
    have hpxroot : IsRoot uf2.parent px := by
      have h1 : rootD uf2.parent x = px := by rw [huf2_pres2 x, hpx_eq]
      have := rootD_isRoot uf2 huf2_inv x
      rw [h1] at this
      exact this
    have hpyroot : IsRoot uf2.parent py := by
      have h1 : rootD uf2.parent y = py := by rw [huf2_pres2 y, hpy_eq2]
      have := rootD_isRoot uf2 huf2_inv y
      rw [h1] at this
      exact this
    by_cases hc : uf2.rank.getD px 0 < uf2.rank.getD py 0
    · -- winner py, demoted px
      have heq : ufUnion uf x y = ⟨uf2.parent.set px py,
          if uf2.rank.getD py 0 = uf2.rank.getD px 0 then
            uf2.rank.set py (uf2.rank.getD py 0 + 1) else uf2.rank⟩ := by
        simp only [ufUnion, ← hpx, ← huf1, ← hpy, ← huf2]
        rw [if_neg hpq]
        simp only [if_pos hc]
        split_ifs <;> rfl
      have hinv4 := link_inv uf2 huf2_inv py px (by omega) (by omega) hpyroot
        (Ne.symm hpq) (by omega)
      rw [heq]
      have hchar : ∀ z, rootD (uf2.parent.set px py) z =
          if rootD uf.parent z = px then py else rootD uf.parent z := by
        intro z
        have hz : Reach uf2.parent z (rootD uf.parent z) := by
          rw [← huf2_pres2 z]
          exact reach_rootD uf2 huf2_inv z
        have hr := reach_set_link uf2.parent px py z (rootD uf.parent z)
          (by omega) hpxroot hpyroot (fun h => hpq h.symm) hz
        exact rootD_eq_of_reach ⟨uf2.parent.set px py, _⟩ hinv4 z _ hr
      refine ⟨hinv4, by simp [huf2_len2], fun z w => ?_⟩
      simp only
      rw [hchar z, hchar w, ← hpx_eq, ← hpy_eq2]
      split_ifs <;> omega
    · -- winner px, demoted py
      have heq : ufUnion uf x y = ⟨uf2.parent.set py px,
          if uf2.rank.getD px 0 = uf2.rank.getD py 0 then
            uf2.rank.set px (uf2.rank.getD px 0 + 1) else uf2.rank⟩ := by
        simp only [ufUnion, ← hpx, ← huf1, ← hpy, ← huf2]
        rw [if_neg hpq]
        simp only [if_neg hc]
        split_ifs <;> rfl
      have hinv4 := link_inv uf2 huf2_inv px py (by omega) (by omega) hpxroot
        hpq (by omega)
      rw [heq]
      have hchar : ∀ z, rootD (uf2.parent.set py px) z =
          if rootD uf.parent z = py then px else rootD uf.parent z := by
        intro z
        have hz : Reach uf2.parent z (rootD uf.parent z) := by
          rw [← huf2_pres2 z]
          exact reach_rootD uf2 huf2_inv z
        have hr := reach_set_link uf2.parent py px z (rootD uf.parent z)
          (by omega) hpyroot hpxroot hpq hz
        exact rootD_eq_of_reach ⟨uf2.parent.set py px, _⟩ hinv4 z _ hr
      refine ⟨hinv4, by simp [huf2_len2], fun z w => ?_⟩
      simp only
      rw [hchar z, hchar w, ← hpx_eq, ← hpy_eq2]
      split_ifs <;> omega

/-- Folding `union` over a list of index pairs (the order in which the
matchers issue their `union` calls). -/
def ufUnionPairs (uf : UnionFind) (ps : List (Nat × Nat)) : UnionFind :=
  ps.foldl (fun u p => ufUnion u p.1 p.2) uf

theorem eqvGen_mono_ext {α : Type} {r s : α → α → Prop}
    (h : ∀ a b, r a b → Relation.EqvGen s a b) :
    ∀ {a b}, Relation.EqvGen r a b → Relation.EqvGen s a b := by
  intro a b hab
  induction hab with
  | rel a b hr => exact h a b hr
  | refl a => exact Relation.EqvGen.refl a
  | symm a b _ ih => exact Relation.EqvGen.symm a b ih
  | trans a b c _ _ ih1 ih2 => exact Relation.EqvGen.trans a b c ih1 ih2

/-- After a sequence of unions, two nodes share a root exactly when they are
related by the equivalence closure of "already shared a root, or appear as a
unioned pair". -/
theorem ufUnionPairs_spec : ∀ (ps : List (Nat × Nat)) (uf : UnionFind), UFInv uf →
    (∀ p ∈ ps, p.1 < uf.parent.length ∧ p.2 < uf.parent.length) →
    UFInv (ufUnionPairs uf ps) ∧
    (ufUnionPairs uf ps).parent.length = uf.parent.length ∧
    (∀ z w, rootD (ufUnionPairs uf ps).parent z = rootD (ufUnionPairs uf ps).parent w ↔
      Relation.EqvGen
        (fun a b => rootD uf.parent a = rootD uf.parent b ∨ (a, b) ∈ ps) z w) := by
  intro ps
  induction ps with
  | nil =>
    intro uf hInv _
    refine ⟨hInv, rfl, fun z w => ?_⟩
    constructor
    · intro h
      exact Relation.EqvGen.rel z w (Or.inl h)
    · intro h
      induction h with
      | rel a b hr =>
        rcases hr with hr | hr
        · exact hr
        · simp at hr
      | refl a => rfl
      | symm a b _ ih => exact ih.symm
      | trans a b c _ _ ih1 ih2 => exact ih1.trans ih2
  | cons p ps ih =>
    intro uf hInv hmem
    have hp1 : p.1 < uf.parent.length := (hmem p (List.mem_cons_self p ps)).1
    have hp2 : p.2 < uf.parent.length := (hmem p (List.mem_cons_self p ps)).2
    obtain ⟨hinv1, hlen1, hchar⟩ := ufUnion_spec uf p.1 p.2 hInv hp1 hp2
    have hfold : ufUnionPairs uf (p :: ps) = ufUnionPairs (ufUnion uf p.1 p.2) ps := rfl
    have hmem1 : ∀ q ∈ ps, q.1 < (ufUnion uf p.1 p.2).parent.length ∧
        q.2 < (ufUnion uf p.1 p.2).parent.length := by
      intro q hq
      have := hmem q (List.mem_cons_of_mem p hq)
      omega
    obtain ⟨hinv2, hlen2, hchar2⟩ := ih (ufUnion uf p.1 p.2) hinv1 hmem1
    rw [hfold]
    refine ⟨hinv2, by omega, fun z w => ?_⟩
    rw [hchar2 z w]
    constructor
    · apply eqvGen_mono_ext
      intro a b hab
      rcases hab with hab | hab
      · rw [hchar a b] at hab
        rcases hab with hab | ⟨h1, h2⟩ | ⟨h1, h2⟩
        · exact Relation.EqvGen.rel a b (Or.inl hab)
        · refine Relation.EqvGen.trans a p.1 b (Relation.EqvGen.rel _ _ (Or.inl h1)) ?_
          refine Relation.EqvGen.trans p.1 p.2 b
            (Relation.EqvGen.rel _ _ (Or.inr (by simp))) ?_
          exact Relation.EqvGen.symm _ _ (Relation.EqvGen.rel _ _ (Or.inl h2))
        · refine Relation.EqvGen.trans a p.2 b (Relation.EqvGen.rel _ _ (Or.inl h1)) ?_
          refine Relation.EqvGen.trans p.2 p.1 b
            (Relation.EqvGen.symm _ _ (Relation.EqvGen.rel _ _ (Or.inr (by simp)))) ?_
          exact Relation.EqvGen.symm _ _ (Relation.EqvGen.rel _ _ (Or.inl h2))
      · exact Relation.EqvGen.rel a b (Or.inr (List.mem_cons_of_mem p hab))
    · apply eqvGen_mono_ext
      intro a b hab
      rcases hab with hab | hab
      · refine Relation.EqvGen.rel a b (Or.inl ?_)
        rw [hchar a b]
        exact Or.inl hab
      · rcases List.mem_cons.mp hab with hab | hab
        · refine Relation.EqvGen.rel a b (Or.inl ?_)
          rw [hchar a b]
          have ha : a = p.1 := by rw [← hab]
          have hb : b = p.2 := by rw [← hab]
          subst ha
          subst hb
          exact Or.inr (Or.inl ⟨rfl, rfl⟩)
        · exact Relation.EqvGen.rel a b (Or.inr hab)

theorem parStep_range (n x : Nat) : parStep (List.range n) x = x := by
  unfold parStep
  by_cases hx : x < n
  · simp [List.getD_eq_getElem?_getD, List.getElem?_range hx]
  · apply List.getD_eq_default
    simpa using by omega

theorem rootD_range (n x : Nat) : rootD (List.range n) x = x :=
  rootAux_of_isRoot _ _ _ (parStep_range n x)

theorem newUnionFind_inv (n : Nat) : UFInv (newUnionFind n) := by
  refine ⟨by simp [newUnionFind], ?_, ?_⟩
  · intro x hx
    simp only [newUnionFind] at hx ⊢
    rw [parStep_range]
    simpa using hx
  · intro x hx hne
    simp only [newUnionFind] at hne
    rw [parStep_range] at hne
    exact absurd rfl hne

/-- Partition after a sequence of unions on a fresh forest: the equivalence
closure of the unioned pairs. -/
theorem ufUnionPairs_new_spec (n : Nat) (ps : List (Nat × Nat))
    (hmem : ∀ p ∈ ps, p.1 < n ∧ p.2 < n) :
    UFInv (ufUnionPairs (newUnionFind n) ps) ∧
    (ufUnionPairs (newUnionFind n) ps).parent.length = n ∧
    (∀ z w, rootD (ufUnionPairs (newUnionFind n) ps).parent z =
        rootD (ufUnionPairs (newUnionFind n) ps).parent w ↔
      Relation.EqvGen (fun a b => a = b ∨ (a, b) ∈ ps) z w) := by
  have hlen : (newUnionFind n).parent.length = n := by simp [newUnionFind]
  obtain ⟨h1, h2, h3⟩ := ufUnionPairs_spec ps (newUnionFind n) (newUnionFind_inv n)
    (by intro p hp; rw [hlen]; exact hmem p hp)
  refine ⟨h1, by omega, fun z w => ?_⟩
  rw [h3 z w]
  have hroot : ∀ a b : Nat,
      (rootD (newUnionFind n).parent a = rootD (newUnionFind n).parent b) ↔ a = b := by
    intro a b
    simp only [newUnionFind]
    rw [rootD_range, rootD_range]
  constructor <;> apply eqvGen_mono_ext <;> intro a b hab
  · rcases hab with hab | hab
    · exact Relation.EqvGen.rel a b (Or.inl ((hroot a b).mp hab))
    · exact Relation.EqvGen.rel a b (Or.inr hab)
  · rcases hab with hab | hab
    · exact Relation.EqvGen.rel a b (Or.inl ((hroot a b).mpr hab))
    · exact Relation.EqvGen.rel a b (Or.inr hab)

/-- Two union sequences whose pair sets agree up to orientation produce the
same partition on a fresh forest. -/
theorem ufUnionPairs_new_congr (n : Nat) (ps qs : List (Nat × Nat))
    (hps : ∀ p ∈ ps, p.1 < n ∧ p.2 < n) (hqs : ∀ p ∈ qs, p.1 < n ∧ p.2 < n)
    (hagree : ∀ a b, ((a, b) ∈ ps ∨ (b, a) ∈ ps) ↔ ((a, b) ∈ qs ∨ (b, a) ∈ qs)) :
    ∀ z w, rootD (ufUnionPairs (newUnionFind n) ps).parent z =
        rootD (ufUnionPairs (newUnionFind n) ps).parent w ↔
      rootD (ufUnionPairs (newUnionFind n) qs).parent z =
        rootD (ufUnionPairs (newUnionFind n) qs).parent w := by
  intro z w
  rw [(ufUnionPairs_new_spec n ps hps).2.2 z w, (ufUnionPairs_new_spec n qs hqs).2.2 z w]
  have key : ∀ (rs ts : List (Nat × Nat)),
      (∀ a b, ((a, b) ∈ rs ∨ (b, a) ∈ rs) → ((a, b) ∈ ts ∨ (b, a) ∈ ts)) →
      ∀ a b, Relation.EqvGen (fun u v => u = v ∨ (u, v) ∈ rs) a b →
        Relation.EqvGen (fun u v => u = v ∨ (u, v) ∈ ts) a b := by
    intro rs ts hsub a b
    apply eqvGen_mono_ext
    intro u v huv
    rcases huv with huv | huv
    · exact Relation.EqvGen.rel u v (Or.inl huv)
    · rcases hsub u v (Or.inl huv) with h | h
      · exact Relation.EqvGen.rel u v (Or.inr h)
      · exact Relation.EqvGen.symm _ _ (Relation.EqvGen.rel v u (Or.inr h))
  constructor
  · exact key ps qs (fun a b h => (hagree a b).mp h) z w
  · exact key qs ps (fun a b h => (hagree a b).mpr h) z w

/-! ## Data model (`models.ImageInfo`, `models.DuplicateGroup`)

`Score float64` and `ModTime time.Time` are modelled as `Int`: the core only
compares them (`!=`, `>`, `Equal`, `After`), never does arithmetic.  Pointer
identity of `*models.ImageInfo` is the index into the caller's slice, so a
group member is an index/value pair. -/

structure ImageInfo where
  id : Int := 0
  path : String := ""
  hash : Nat := 0
  fileHash : String := ""
  width : Int := 0
  height : Int := 0
  format : String := ""
  fileSize : Int := 0
  modTime : Int := 0
  hasExif : Bool := false
  score : Int := 0
  groupID : Int := 0
deriving DecidableEq, Repr, Inhabited

structure DuplicateGroup where
  id : Int
  images : List (Nat × ImageInfo)
  keep : Option (Nat × ImageInfo) := none
  remove : List (Nat × ImageInfo) := []
deriving DecidableEq, Repr

/-- The `less` closure passed to `sort.Slice` in `selectKeepAndRemove`
(matcher.go 284-304): score desc, then file size desc, then mod time desc,
then path asc. -/
def imgSortLess (a b : ImageInfo) : Bool :=
  if a.score ≠ b.score then decide (a.score > b.score)
  else if a.fileSize ≠ b.fileSize then decide (a.fileSize > b.fileSize)
  else if a.modTime ≠ b.modTime then decide (a.modTime > b.modTime)
  else decide (a.path < b.path)

/-- The `img.GroupID = group.ID` write. -/
def setGid (img : ImageInfo) (gid : Int) : ImageInfo := { img with groupID := gid }

/-- `selectKeepAndRemove` (matcher.go 274-316): sort a copy of the members by
the comparator, keep the first, remove the rest, and write the group ID into
every member.  `sort.Slice(s, less)` (unstable) is modelled as
`mergeSort (fun a b => !(less b a))`, whose output is a permutation of the
input sorted for the comparator — exactly the `sort.Slice` contract; the
`GroupID` mutation through the shared pointers is reflected on the `images`,
`keep` and `remove` aliases. -/
def selectKeepAndRemove (group : DuplicateGroup) : DuplicateGroup :=
  if group.images.length = 0 then group
  else
    let sorted := group.images.mergeSort (fun a b => ! imgSortLess b.2 a.2)
    { group with
        keep := sorted.head?.map (fun p => (p.1, setGid p.2 group.id)),
        remove := sorted.tail.map (fun p => (p.1, setGid p.2 group.id)),
        images := group.images.map (fun p => (p.1, setGid p.2 group.id)) }

/-- `groupMap[root] = append(groupMap[root], i)` on an association-list model
of the Go map (key-insertion order). -/
def addGroup {κ : Type} [DecidableEq κ] (m : List (κ × List Nat)) (k : κ) (i : Nat) :
    List (κ × List Nat) :=
  match m with
  | [] => [(k, [i])]
  | (k2, l) :: rest =>
      if k2 = k then (k2, l ++ [i]) :: rest else (k2, l) :: addGroup rest k i

/-- The `GroupID` writes of `selectKeepAndRemove` as seen through the
caller's slice. -/
def applyGroupIDs (images : List ImageInfo) (groups : List DuplicateGroup) :
    List ImageInfo :=
  groups.foldl
    (fun imgs g =>
      g.images.foldl (fun l p => l.set p.1 (setGid (l.getD p.1 default) g.id)) imgs)
    images

/-- `buildGroups` (matcher.go 246-271): iterate the map's buckets, skip those
with fewer than 2 members, assign IDs from 1, select Keep/Remove, and sort
by ID.  The second component is the caller's slice after the `GroupID`
writes. -/
def buildGroups (images : List ImageInfo) (buckets : List (List Nat)) :
    List DuplicateGroup × List ImageInfo :=
  let built := buckets.foldl
    (fun (acc : List DuplicateGroup × Int) idxs =>
      if idxs.length < 2 then acc
      else
        let group : DuplicateGroup :=
          { id := acc.2, images := idxs.map (fun i => (i, images.getD i default)) }
        (acc.1 ++ [selectKeepAndRemove group], acc.2 + 1))
    ([], 1)
  let groups := built.1.mergeSort (fun a b => decide (a.id ≤ b.id))
  (groups, applyGroupIDs images groups)

/-- The root-collection loop (perceptual.go 46-50): `root := uf.find(i);
groupMap[root] = append(groupMap[root], img)`, threading the union-find state
through the `find` calls. -/
def collectGroups (uf0 : UnionFind) (n : Nat) : UnionFind × List (Nat × List Nat) :=
  (List.range n).foldl
    (fun acc i =>
      let fr := ufFind acc.1 i
      (fr.1, addGroup acc.2 fr.2 i))
    (uf0, [])

/-- `PerceptualMatcher.FindGroups` (perceptual.go 23-53) for the already
clamped, hence non-negative, threshold.  For each item in input order: query
the BK-tree for the previously inserted neighbours, union with each of them,
insert; then group by root and build the duplicate groups. -/
def perceptualFindGroups (threshold : Nat) (images : List ImageInfo) :
    List DuplicateGroup × List ImageInfo :=
  let n := images.length
  if n < 2 then ([], images)
  else
    let phase1 := (List.range n).foldl
      (fun (st : UnionFind × BKTree) i =>
        let img := images.getD i default
        let neighbors := bkFindWithinDistance st.2 img.hash threshold
        let uf := neighbors.foldl (fun u j => ufUnion u i j) st.1
        (uf, bkTreeInsert st.2 img.hash i))
      (newUnionFind n, ⟨none⟩)
    let collected := collectGroups phase1.1 n
    buildGroups images (collected.2.map (fun e => e.2))

/-- `NewPerceptualMatcher` (perceptual.go 14-19): a negative threshold is
replaced by the default 10; the matcher's state is just the threshold. -/
def NewPerceptualMatcher (threshold : Int) : Int :=
  if threshold < 0 then 10 else threshold

/-- `FindGroups` on a matcher built by `NewPerceptualMatcher` (the clamped
threshold is non-negative, so `toNat` is faithful). -/
def PerceptualMatcherFindGroups (threshold : Int) (images : List ImageInfo) :
    List DuplicateGroup × List ImageInfo :=
  perceptualFindGroups (NewPerceptualMatcher threshold).toNat images

/-- `Grouper.FindGroups` (grouper.go 57-110): the brute-force O(n²) scan that
unions every pair `(i, j)`, `i < j`, within the threshold, then groups by
root.  Its group-building tail is line-for-line the same code as
`buildGroups`/`selectKeepAndRemove` in matcher.go, so the model shares those
definitions. -/
def grouperFindGroups (threshold : Nat) (images : List ImageInfo) :
    List DuplicateGroup × List ImageInfo :=
  let n := images.length
  if n < 2 then ([], images)
  else
    let uf := (List.range n).foldl
      (fun uf i =>
        (List.range' (i + 1) (n - (i + 1))).foldl
          (fun u j =>
            if HammingDistance (images.getD i default).hash
                (images.getD j default).hash ≤ threshold
            then ufUnion u i j else u)
          uf)
      (newUnionFind n)
    let collected := collectGroups uf n
    buildGroups images (collected.2.map (fun e => e.2))

/-- `NewGrouper` (grouper.go 13-18): identical clamp to
`NewPerceptualMatcher`. -/
def NewGrouper (threshold : Int) : Int :=
  if threshold < 0 then 10 else threshold

def GrouperFindGroups (threshold : Int) (images : List ImageInfo) :
    List DuplicateGroup × List ImageInfo :=
  grouperFindGroups (NewGrouper threshold).toNat images

/-- `ExactMatcher.FindGroups` (exact.go 14-36): bucket the items by non-empty
content hash, then hand the buckets (re-keyed by integers in Go, which keeps
only their order) to the same group builder. -/
def ExactMatcherFindGroups (images : List ImageInfo) :
    List DuplicateGroup × List ImageInfo :=
  if images.length < 2 then ([], images)
  else
    let hashMap := (List.range images.length).foldl
      (fun (m : List (String × List Nat)) i =>
        let img := images.getD i default
        if img.fileHash ≠ "" then addGroup m img.fileHash i else m)
      []
    buildGroups images (hashMap.map (fun e => e.2))

/-! ## Comparator order -/

/-- Propositional form of `imgSortLess`: `a` strictly beats `b` in the
score / file size / mod time / path lexicographic order. -/
def LexLt (a b : ImageInfo) : Prop :=
  b.score < a.score ∨ (a.score = b.score ∧
    (b.fileSize < a.fileSize ∨ (a.fileSize = b.fileSize ∧
      (b.modTime < a.modTime ∨ (a.modTime = b.modTime ∧ a.path < b.path)))))

theorem imgSortLess_iff (a b : ImageInfo) : imgSortLess a b = true ↔ LexLt a b := by
  unfold imgSortLess LexLt
  split_ifs with h1 h2 h3
  · simp only [decide_eq_true_eq, gt_iff_lt]
    constructor
    · exact Or.inl
    · rintro (h | ⟨heq, _⟩)
      · exact h
      · exact absurd heq h1
  · simp only [decide_eq_true_eq, gt_iff_lt]
    push_neg at h1
    constructor
    · intro h
      exact Or.inr ⟨h1, Or.inl h⟩
    · rintro (h | ⟨heq, h | ⟨heq2, _⟩⟩)
      · omega
      · exact h
      · exact absurd heq2 h2
  · simp only [decide_eq_true_eq, gt_iff_lt]
    push_neg at h1 h2
    constructor
    · intro h
      exact Or.inr ⟨h1, Or.inr ⟨h2, Or.inl h⟩⟩
    · rintro (h | ⟨heq, h | ⟨heq2, h | ⟨heq3, _⟩⟩⟩)
      · omega
      · omega
      · exact h
      · exact absurd heq3 h3
  · simp only [decide_eq_true_eq]
    push_neg at h1 h2 h3
    constructor
    · intro h
      exact Or.inr ⟨h1, Or.inr ⟨h2, Or.inr ⟨h3, h⟩⟩⟩
    · rintro (h | ⟨heq, h | ⟨heq2, h | ⟨heq3, h⟩⟩⟩)
      · omega
      · omega
      · omega
      · exact h

theorem LexLt_asymm (a b : ImageInfo) (h1 : LexLt a b) : ¬ LexLt b a := by
  intro h2
  unfold LexLt at h1 h2
  rcases h1 with h1 | ⟨e1, h1⟩ <;> rcases h2 with h2 | ⟨e2, h2⟩
  · omega
  · omega
  · omega
  · rcases h1 with h1 | ⟨f1, h1⟩ <;> rcases h2 with h2 | ⟨f2, h2⟩
    · omega
    · omega
    · omega
    · rcases h1 with h1 | ⟨m1, h1⟩ <;> rcases h2 with h2 | ⟨m2, h2⟩
      · omega
      · omega
      · omega
      · exact lt_asymm h1 h2

/-- If `a` beats `c`, then against any `b` either `a` beats `b` or `b` beats
`c` (strict weak order property behind transitivity of the sort's `le`). -/
theorem LexLt_step (a b c : ImageInfo) (h : LexLt a c) : LexLt a b ∨ LexLt b c := by
  unfold LexLt at h ⊢
  rcases h with h | ⟨e1, h⟩
  · rcases lt_trichotomy b.score a.score with h2 | h2 | h2
    · exact Or.inl (Or.inl h2)
    · exact Or.inr (Or.inl (by omega))
    · exact Or.inr (Or.inl (by omega))
  · rcases lt_trichotomy b.score a.score with h2 | h2 | h2
    · exact Or.inl (Or.inl h2)
    · rcases h with h | ⟨f1, h⟩
      · rcases lt_trichotomy b.fileSize a.fileSize with h3 | h3 | h3
        · exact Or.inl (Or.inr ⟨by omega, Or.inl h3⟩)
        · exact Or.inr (Or.inr ⟨by omega, Or.inl (by omega)⟩)
        · exact Or.inr (Or.inr ⟨by omega, Or.inl (by omega)⟩)
      · rcases lt_trichotomy b.fileSize a.fileSize with h3 | h3 | h3
        · exact Or.inl (Or.inr ⟨by omega, Or.inl h3⟩)
        · rcases h with h | ⟨m1, h⟩
          · rcases lt_trichotomy b.modTime a.modTime with h4 | h4 | h4
            · exact Or.inl (Or.inr ⟨by omega, Or.inr ⟨by omega, Or.inl h4⟩⟩)
            · exact Or.inr (Or.inr ⟨by omega, Or.inr ⟨by omega, Or.inl (by omega)⟩⟩)
            · exact Or.inr (Or.inr ⟨by omega, Or.inr ⟨by omega, Or.inl (by omega)⟩⟩)
          · rcases lt_trichotomy b.modTime a.modTime with h4 | h4 | h4
            · exact Or.inl (Or.inr ⟨by omega, Or.inr ⟨by omega, Or.inl h4⟩⟩)
            · rcases lt_trichotomy a.path b.path with h5 | h5 | h5
              · exact Or.inl (Or.inr ⟨by omega, Or.inr ⟨by omega, Or.inr ⟨by omega, h5⟩⟩⟩)
              · exact Or.inr (Or.inr ⟨by omega, Or.inr ⟨by omega,
                  Or.inr ⟨by omega, by rw [← h5]; exact h⟩⟩⟩)
              · exact Or.inr (Or.inr ⟨by omega, Or.inr ⟨by omega,
                  Or.inr ⟨by omega, lt_trans h5 h⟩⟩⟩)
            · exact Or.inr (Or.inr ⟨by omega, Or.inr ⟨by omega, Or.inl (by omega)⟩⟩)
        · exact Or.inr (Or.inr ⟨by omega, Or.inl (by omega)⟩)
    · exact Or.inr (Or.inl (by omega))

/-- Items with distinct paths are always strictly comparable. -/
theorem LexLt_connex (a b : ImageInfo) (h : a.path ≠ b.path) :
    LexLt a b ∨ LexLt b a := by
  unfold LexLt
  rcases lt_trichotomy b.score a.score with h1 | h1 | h1
  · exact Or.inl (Or.inl h1)
  · rcases lt_trichotomy b.fileSize a.fileSize with h2 | h2 | h2
    · exact Or.inl (Or.inr ⟨by omega, Or.inl h2⟩)
    · rcases lt_trichotomy b.modTime a.modTime with h3 | h3 | h3
      · exact Or.inl (Or.inr ⟨by omega, Or.inr ⟨by omega, Or.inl h3⟩⟩)
      · rcases lt_trichotomy a.path b.path with h4 | h4 | h4
        · exact Or.inl (Or.inr ⟨by omega, Or.inr ⟨by omega, Or.inr ⟨by omega, h4⟩⟩⟩)
        · exact absurd h4 h
        · exact Or.inr (Or.inr ⟨by omega, Or.inr ⟨by omega, Or.inr ⟨by omega, h4⟩⟩⟩)
      · exact Or.inr (Or.inr ⟨by omega, Or.inr ⟨by omega, Or.inl h3⟩⟩)
    · exact Or.inr (Or.inr ⟨by omega, Or.inl h2⟩)
  · exact Or.inr (Or.inl h1)

/-- The `le` handed to `mergeSort` when modelling
`sort.Slice(sorted, less)`. -/
def imgLe (p q : Nat × ImageInfo) : Bool := ! imgSortLess q.2 p.2

theorem imgLe_total (p q : Nat × ImageInfo) : imgLe p q || imgLe q p := by
  unfold imgLe
  by_cases h : imgSortLess q.2 p.2 = true
  · have h2 : ¬ LexLt p.2 q.2 := LexLt_asymm _ _ ((imgSortLess_iff _ _).mp h)
    have h3 : imgSortLess p.2 q.2 = false := by
      rcases Bool.eq_false_or_eq_true (imgSortLess p.2 q.2) with ht | hf
      · exact absurd ((imgSortLess_iff _ _).mp ht) h2
      · exact hf
    simp [h3]
  · simp [Bool.eq_false_iff.mpr h]

theorem imgLe_trans (p q r : Nat × ImageInfo) (h1 : imgLe p q) (h2 : imgLe q r) :
    imgLe p r := by
  unfold imgLe at h1 h2 ⊢
  simp only [Bool.not_eq_eq_eq_not, Bool.not_true] at h1 h2
  simp only [Bool.not_eq_eq_eq_not, Bool.not_true]
  rcases Bool.eq_false_or_eq_true (imgSortLess r.2 p.2) with ht | hf
  case inr => exact hf
  case inl =>
    exfalso
    have h3 := (imgSortLess_iff _ _).mp ht
    rcases LexLt_step r.2 q.2 p.2 h3 with h4 | h4
    · rw [(imgSortLess_iff r.2 q.2).mpr h4] at h2
      exact Bool.true_eq_false.mp h2
    · rw [(imgSortLess_iff q.2 p.2).mpr h4] at h1
      exact Bool.true_eq_false.mp h1

/-! ## `selectKeepAndRemove` properties -/

theorem setGid_comparator (a b : ImageInfo) (g1 g2 : Int) :
    imgSortLess (setGid a g1) (setGid b g2) = imgSortLess a b := rfl

theorem setGid_path (a : ImageInfo) (g : Int) : (setGid a g).path = a.path := rfl

theorem selectKeepAndRemove_id (g : DuplicateGroup) :
    (selectKeepAndRemove g).id = g.id := by
  unfold selectKeepAndRemove
  split_ifs <;> rfl

theorem selectKeepAndRemove_idx (g : DuplicateGroup) :
    (selectKeepAndRemove g).images.map (fun p => p.1) = g.images.map (fun p => p.1) := by
  unfold selectKeepAndRemove
  split_ifs with h
  · rfl
  · simp

theorem selectKeepAndRemove_length (g : DuplicateGroup) :
    (selectKeepAndRemove g).images.length = g.images.length := by
  unfold selectKeepAndRemove
  split_ifs with h
  · rfl
  · simp

/-- Keep is the strict maximum and Remove the rest, whenever the members'
paths are pairwise distinct. -/
theorem selectKeepAndRemove_spec (g : DuplicateGroup)
    (hne : g.images ≠ [])
    (hpaths : (g.images.map (fun p => p.2.path)).Nodup) :
    ∃ k, (selectKeepAndRemove g).keep = some k ∧
      k ∈ (selectKeepAndRemove g).images ∧
      (∀ m ∈ (selectKeepAndRemove g).images, m ≠ k → imgSortLess k.2 m.2 = true) ∧
      (selectKeepAndRemove g).remove.length + 1 = (selectKeepAndRemove g).images.length ∧
      (k :: (selectKeepAndRemove g).remove).Perm (selectKeepAndRemove g).images ∧
      k ∉ (selectKeepAndRemove g).remove := by
  have hlen : g.images.length ≠ 0 := fun h => hne (List.length_eq_zero.mp h)
  unfold selectKeepAndRemove
  rw [if_neg hlen]
  simp only
  set f := fun p : Nat × ImageInfo => (p.1, setGid p.2 g.id) with hf
  set sorted := g.images.mergeSort (fun a b => ! imgSortLess b.2 a.2) with hsorted
  have hsperm : sorted.Perm g.images := List.mergeSort_perm g.images _
  have hslen : sorted.length = g.images.length := by
    rw [hsorted]
    exact List.length_mergeSort g.images
  have hpw : sorted.Pairwise (fun a b => imgLe a b) := by
    rw [hsorted]
    exact List.sorted_mergeSort (fun a b c => imgLe_trans a b c) imgLe_total g.images
  obtain ⟨s0, stail, hcons⟩ : ∃ s0 stail, sorted = s0 :: stail := by
    cases hs : sorted with
    | nil =>
      rw [hs] at hslen
      simp at hslen
      omega
    | cons s0 stail => exact ⟨s0, stail, rfl⟩
  rw [hcons] at hslen
  simp only [List.length_cons] at hslen
  refine ⟨f s0, ?_, ?_, ?_, ?_, ?_, ?_⟩
  · rw [hcons]
    rfl
  · have hs0 : s0 ∈ g.images := hsperm.mem_iff.mp (by rw [hcons]; exact List.mem_cons_self _ _)
    exact List.mem_map_of_mem f hs0
  · intro m hm hmk
    obtain ⟨m0, hm0, hfm0⟩ := List.mem_map.mp hm
    have hm0s : m0 ∈ sorted := hsperm.mem_iff.mpr hm0
    rw [hcons] at hm0s
    rcases List.mem_cons.mp hm0s with h | h
    · exact absurd (by rw [← hfm0, h]) hmk
    · have hle : imgLe s0 m0 := by
        rw [hcons] at hpw
        exact (List.pairwise_cons.mp hpw).1 m0 h
      have hm0ne : m0 ≠ s0 := by
        intro heq
        exact hmk (by rw [← hfm0, heq])
      have hs0mem : s0 ∈ g.images :=
        hsperm.mem_iff.mp (by rw [hcons]; exact List.mem_cons_self _ _)
      have hpne : s0.2.path ≠ m0.2.path := by
        intro heq
        exact hm0ne (List.inj_on_of_nodup_map hpaths hm0 hs0mem heq.symm)
      have hconn := LexLt_connex s0.2 m0.2 hpne
      have hnot : ¬ LexLt m0.2 s0.2 := by
        intro hlt
        have := (imgSortLess_iff m0.2 s0.2).mpr hlt
        unfold imgLe at hle
        rw [this] at hle
        simp at hle
      have hyes : LexLt s0.2 m0.2 := by
        rcases hconn with h | h
        · exact h
        · exact absurd h hnot
      rw [← hfm0]
      show imgSortLess (setGid s0.2 g.id) (setGid m0.2 g.id) = true
      rw [setGid_comparator]
      exact (imgSortLess_iff _ _).mpr hyes
  · rw [hcons]
    simp only [List.length_map, List.length_tail, List.length_cons]
    omega
  · have hmap : sorted.map f = f s0 :: stail.map f := by rw [hcons]; rfl
    have hperm2 : (sorted.map f).Perm (g.images.map f) := hsperm.map f
    rw [hmap] at hperm2
    rw [hcons]
    simpa using hperm2
  · rw [hcons]
    intro hmem
    simp only [List.tail_cons] at hmem
    obtain ⟨m0, hm0, hfm0⟩ := List.mem_map.mp hmem
    have hpatheq : m0.2.path = s0.2.path := by
      have h1 : setGid m0.2 g.id = setGid s0.2 g.id := congrArg Prod.snd hfm0
      have h2 := congrArg ImageInfo.path h1
      rw [setGid_path, setGid_path] at h2
      exact h2
    have hm0in : m0 ∈ g.images := hsperm.mem_iff.mp (by rw [hcons]; exact List.mem_cons_of_mem _ hm0)
    have hs0in : s0 ∈ g.images :=
      hsperm.mem_iff.mp (by rw [hcons]; exact List.mem_cons_self _ _)
    have hm0eq : m0 = s0 := List.inj_on_of_nodup_map hpaths hm0in hs0in hpatheq
    have hnodups : ((s0 :: stail).map (fun p => p.2.path)).Nodup := by
      have := ((hsperm.map (fun p : Nat × ImageInfo => p.2.path)).nodup_iff).mpr hpaths
      rw [hcons] at this
      exact this
    simp only [List.map_cons, List.nodup_cons] at hnodups
    have hs0tail : s0 ∈ stail := hm0eq ▸ hm0
    exact hnodups.1 (List.mem_map_of_mem _ hs0tail)

/-! ## `buildGroups` structure -/

/-- Closed form of the group-building fold: buckets of size at least 2, in
order, with IDs counted from `k`. -/
def builtGroups (images : List ImageInfo) : Int → List (List Nat) → List DuplicateGroup
  | _, [] => []
  | k, idxs :: rest =>
      if idxs.length < 2 then builtGroups images k rest
      else
        selectKeepAndRemove
          { id := k, images := idxs.map (fun i => (i, images.getD i default)) } ::
          builtGroups images (k + 1) rest

theorem builtGroups_nil (images : List ImageInfo) (k : Int) :
    builtGroups images k [] = [] := rfl

theorem builtGroups_cons (images : List ImageInfo) (k : Int) (idxs : List Nat)
    (rest : List (List Nat)) :
    builtGroups images k (idxs :: rest) =
      if idxs.length < 2 then builtGroups images k rest
      else
        selectKeepAndRemove
          { id := k, images := idxs.map (fun i => (i, images.getD i default)) } ::
          builtGroups images (k + 1) rest := rfl

theorem buildGroups_fold (images : List ImageInfo) :
    ∀ (buckets : List (List Nat)) (gs0 : List DuplicateGroup) (k0 : Int),
      (buckets.foldl
        (fun (acc : List DuplicateGroup × Int) idxs =>
          if idxs.length < 2 then acc
          else
            let group : DuplicateGroup :=
              { id := acc.2, images := idxs.map (fun i => (i, images.getD i default)) }
            (acc.1 ++ [selectKeepAndRemove group], acc.2 + 1))
        (gs0, k0)).1 = gs0 ++ builtGroups images k0 buckets := by
  intro buckets
  induction buckets with
  | nil => intro gs0 k0; simp [builtGroups_nil]
  | cons b rest ih =>
    intro gs0 k0
    simp only [List.foldl_cons]
    rw [builtGroups_cons]
    by_cases hb : b.length < 2
    · rw [if_pos hb, if_pos hb]
      exact ih gs0 k0
    · rw [if_neg hb, if_neg hb]
      rw [ih]
      simp

theorem builtGroups_ids (images : List ImageInfo) :
    ∀ (buckets : List (List Nat)) (k0 : Int),
      (builtGroups images k0 buckets).Pairwise (fun a b => a.id < b.id) ∧
      (∀ g ∈ builtGroups images k0 buckets, k0 ≤ g.id) ∧
      (builtGroups images k0 buckets).map (fun g => g.id) =
        (List.range (builtGroups images k0 buckets).length).map
          (fun (i : Nat) => k0 + (i : Int)) := by
  intro buckets
  induction buckets with
  | nil => intro k0; simp [builtGroups_nil]
  | cons b rest ih =>
    intro k0
    rw [builtGroups_cons]
    by_cases hb : b.length < 2
    · rw [if_pos hb]
      exact ih k0
    · rw [if_neg hb]
      obtain ⟨hpw, hge, hids⟩ := ih (k0 + 1)
      have hid0 : (selectKeepAndRemove
          { id := k0, images := b.map (fun i => (i, images.getD i default)),
            keep := none, remove := [] }).id = k0 := selectKeepAndRemove_id _
      refine ⟨?_, ?_, ?_⟩
      · rw [List.pairwise_cons]
        refine ⟨fun g hg => ?_, hpw⟩
        rw [hid0]
        have := hge g hg
        omega
      · intro g hg
        rcases List.mem_cons.mp hg with h | h
        · rw [h, hid0]
        · have := hge g h
          omega
      · rw [List.map_cons, List.length_cons, hid0, hids, List.range_succ_eq_map,
            List.map_cons, List.map_map]
        congr 1
        · push_cast
          omega
        · apply List.map_congr_left
          intro i _
          simp only [Function.comp]
          push_cast
          omega

theorem buildGroups_fst (images : List ImageInfo) (buckets : List (List Nat)) :
    (buildGroups images buckets).1 = builtGroups images 1 buckets := by
  unfold buildGroups
  simp only
  rw [buildGroups_fold images buckets [] 1]
  simp only [List.nil_append]
  apply List.mergeSort_of_sorted
  have hpw := (builtGroups_ids images buckets 1).1
  exact hpw.imp (fun h => by simp only [decide_eq_true_eq]; omega)

theorem mkGroup_idx (images : List ImageInfo) (k : Int) (b : List Nat) :
    (selectKeepAndRemove
      { id := k, images := b.map (fun i => (i, images.getD i default)),
        keep := none, remove := [] }).images.map (fun p => p.1) = b := by
  rw [selectKeepAndRemove_idx]
  simp only [List.map_map]
  have : ((fun p : Nat × ImageInfo => p.1) ∘ fun i => (i, images.getD i default)) =
      fun i => i := rfl
  rw [this, List.map_id']

theorem builtGroups_mem (images : List ImageInfo) :
    ∀ (bs : List (List Nat)) (k0 : Int) (g : DuplicateGroup),
      g ∈ builtGroups images k0 bs →
      ∃ b, b ∈ bs ∧ ¬ b.length < 2 ∧ ∃ k : Int,
        g = selectKeepAndRemove
          { id := k, images := b.map (fun i => (i, images.getD i default)),
            keep := none, remove := [] } := by
  intro bs
  induction bs with
  | nil => intro k0 g hg; simp [builtGroups_nil] at hg
  | cons b rest ih =>
    intro k0 g hg
    rw [builtGroups_cons] at hg
    by_cases hb : b.length < 2
    · rw [if_pos hb] at hg
      obtain ⟨b2, hb2, hlen2, k, hk⟩ := ih k0 g hg
      exact ⟨b2, List.mem_cons_of_mem _ hb2, hlen2, k, hk⟩
    · rw [if_neg hb] at hg
      rcases List.mem_cons.mp hg with h | h
      · exact ⟨b, List.mem_cons_self _ _, hb, k0, h⟩
      · obtain ⟨b2, hb2, hlen2, k, hk⟩ := ih (k0 + 1) g h
        exact ⟨b2, List.mem_cons_of_mem _ hb2, hlen2, k, hk⟩

theorem builtGroups_mem2 (images : List ImageInfo) :
    ∀ (bs : List (List Nat)) (k0 : Int) (b : List Nat),
      b ∈ bs → ¬ b.length < 2 →
      ∃ g ∈ builtGroups images k0 bs, g.images.map (fun p => p.1) = b := by
  intro bs
  induction bs with
  | nil => intro k0 b hb; simp at hb
  | cons b0 rest ih =>
    intro k0 b hb hlen
    rw [builtGroups_cons]
    by_cases hb0 : b0.length < 2
    · rw [if_pos hb0]
      rcases List.mem_cons.mp hb with h | h
      · rw [h] at hlen
        exact absurd hb0 hlen
      · exact ih k0 b h hlen
    · rw [if_neg hb0]
      rcases List.mem_cons.mp hb with h | h
      · subst h
        exact ⟨_, List.mem_cons_self _ _, mkGroup_idx images k0 b⟩
      · obtain ⟨g, hg, hgi⟩ := ih (k0 + 1) b h hlen
        exact ⟨g, List.mem_cons_of_mem _ hg, hgi⟩

theorem builtGroups_pairwise_disj (images : List ImageInfo) :
    ∀ (bs : List (List Nat)) (k0 : Int),
      bs.Pairwise (fun b1 b2 => ∀ i, i ∈ b1 → i ∉ b2) →
      (builtGroups images k0 bs).Pairwise
        (fun g1 g2 => ∀ i, i ∈ g1.images.map (fun p => p.1) →
          i ∉ g2.images.map (fun p => p.1)) := by
  intro bs
  induction bs with
  | nil => intro k0 _; simp [builtGroups_nil]
  | cons b rest ih =>
    intro k0 hd
    rw [List.pairwise_cons] at hd
    rw [builtGroups_cons]
    by_cases hb : b.length < 2
    · rw [if_pos hb]
      exact ih k0 hd.2
    · rw [if_neg hb]
      rw [List.pairwise_cons]
      refine ⟨?_, ih (k0 + 1) hd.2⟩
      intro g hg i hi
      obtain ⟨b2, hb2, _, k, hk⟩ := builtGroups_mem images rest (k0 + 1) g hg
      rw [mkGroup_idx images k0 b] at hi
      rw [hk, mkGroup_idx images k b2]
      exact hd.1 b2 hb2 i hi

/-! ## Association-list group map -/

theorem addGroup_mem {κ : Type} [DecidableEq κ] :
    ∀ (m : List (κ × List Nat)) (k0 : κ) (i0 : Nat) (k : κ) (i : Nat),
      (∃ e ∈ addGroup m k0 i0, e.1 = k ∧ i ∈ e.2) ↔
        ((k = k0 ∧ i = i0) ∨ ∃ e ∈ m, e.1 = k ∧ i ∈ e.2) := by
  intro m
  induction m with
  | nil =>
    intro k0 i0 k i
    simp only [addGroup, List.mem_singleton]
    constructor
    · rintro ⟨e, he, hk, hi⟩
      subst he
      simp at hi
      exact Or.inl ⟨hk.symm, hi⟩
    · rintro (⟨hk, hi⟩ | ⟨e, he, _⟩)
      · exact ⟨(k0, [i0]), rfl, hk.symm, by simp [hi]⟩
      · simp at he
  | cons e0 rest ih =>
    intro k0 i0 k i
    simp only [addGroup]
    by_cases hk0 : e0.1 = k0
    · rw [if_pos hk0]
      constructor
      · rintro ⟨e, he, hk, hi⟩
        rcases List.mem_cons.mp he with h | h
        · subst h
          simp only at hk hi
          rcases List.mem_append.mp hi with h2 | h2
          · exact Or.inr ⟨e0, List.mem_cons_self _ _, hk, h2⟩
          · simp at h2
            exact Or.inl ⟨by rw [← hk, hk0], h2⟩
        · exact Or.inr ⟨e, List.mem_cons_of_mem _ h, hk, hi⟩
      · rintro (⟨hk, hi⟩ | ⟨e, he, hke, hie⟩)
        · exact ⟨(e0.1, e0.2 ++ [i0]), List.mem_cons_self _ _, by rw [hk0, hk],
            by simp [hi]⟩
        · rcases List.mem_cons.mp he with h | h
          · rw [h] at hke hie
            exact ⟨(e0.1, e0.2 ++ [i0]), List.mem_cons_self _ _, hke, by simp [hie]⟩
          · exact ⟨e, List.mem_cons_of_mem _ h, hke, hie⟩
    · rw [if_neg hk0]
      constructor
      · rintro ⟨e, he, hk, hi⟩
        rcases List.mem_cons.mp he with h | h
        · rw [h] at hk hi
          exact Or.inr ⟨e0, List.mem_cons_self _ _, hk, hi⟩
        · rcases (ih k0 i0 k i).mp ⟨e, h, hk, hi⟩ with h2 | ⟨e2, he2, hk2, hi2⟩
          · exact Or.inl h2
          · exact Or.inr ⟨e2, List.mem_cons_of_mem _ he2, hk2, hi2⟩
      · rintro (⟨hk, hi⟩ | ⟨e, he, hke, hie⟩)
        · obtain ⟨e, he, hk2, hi2⟩ := (ih k0 i0 k i).mpr (Or.inl ⟨hk, hi⟩)
          exact ⟨e, List.mem_cons_of_mem _ he, hk2, hi2⟩
        · rcases List.mem_cons.mp he with h | h
          · rw [h] at hke hie
            exact ⟨e0, List.mem_cons_self _ _, hke, hie⟩
          · obtain ⟨e2, he2, hk2, hi2⟩ := (ih k0 i0 k i).mpr (Or.inr ⟨e, h, hke, hie⟩)
            exact ⟨e2, List.mem_cons_of_mem _ he2, hk2, hi2⟩

theorem addGroup_keys {κ : Type} [DecidableEq κ] :
    ∀ (m : List (κ × List Nat)) (k0 : κ) (i0 : Nat) (x : κ),
      (x ∈ (addGroup m k0 i0).map (fun e => e.1) ↔
        x ∈ m.map (fun e => e.1) ∨ x = k0) := by
  intro m
  induction m with
  | nil => intro k0 i0 x; simp [addGroup]
  | cons e0 rest ih =>
    intro k0 i0 x
    simp only [addGroup]
    by_cases hk0 : e0.1 = k0
    · rw [if_pos hk0]
      simp only [List.map_cons, List.mem_cons]
      constructor
      · rintro (h | h)
        · exact Or.inl (Or.inl h)
        · exact Or.inl (Or.inr h)
      · rintro ((h | h) | h)
        · exact Or.inl h
        · exact Or.inr h
        · rw [h, ← hk0]
          exact Or.inl rfl
    · rw [if_neg hk0]
      simp only [List.map_cons, List.mem_cons]
      rw [ih k0 i0 x]
      tauto

theorem addGroup_keys_nodup {κ : Type} [DecidableEq κ] :
    ∀ (m : List (κ × List Nat)) (k0 : κ) (i0 : Nat),
      (m.map (fun e => e.1)).Nodup → ((addGroup m k0 i0).map (fun e => e.1)).Nodup := by
  intro m
  induction m with
  | nil => intro k0 i0 _; simp [addGroup]
  | cons e0 rest ih =>
    intro k0 i0 hnd
    simp only [List.map_cons, List.nodup_cons] at hnd
    simp only [addGroup]
    by_cases hk0 : e0.1 = k0
    · rw [if_pos hk0]
      simp only [List.map_cons, List.nodup_cons]
      exact hnd
    · rw [if_neg hk0]
      simp only [List.map_cons, List.nodup_cons]
      refine ⟨?_, ih k0 i0 hnd.2⟩
      intro hmem
      rcases (addGroup_keys rest k0 i0 e0.1).mp hmem with h | h
      · exact hnd.1 h
      · exact hk0 h

/-- Coherence of a group map for a root assignment `r`: every entry is a
non-empty bucket whose members all map to the entry's key. -/
def MapCoherent (r : Nat → κ) (m : List (κ × List Nat)) : Prop :=
  ∀ e ∈ m, e.2 ≠ [] ∧ ∀ i ∈ e.2, r i = e.1

theorem addGroup_coherent {κ : Type} [DecidableEq κ] (r : Nat → κ) :
    ∀ (m : List (κ × List Nat)) (i0 : Nat),
      MapCoherent r m → MapCoherent r (addGroup m (r i0) i0) := by
  intro m
  induction m with
  | nil =>
    intro i0 _
    intro e he
    simp only [addGroup, List.mem_singleton] at he
    subst he
    exact ⟨by simp, by simp⟩
  | cons e0 rest ih =>
    intro i0 hcoh
    have hcoh0 := hcoh e0 (List.mem_cons_self _ _)
    have hcohr : MapCoherent r rest := fun e he => hcoh e (List.mem_cons_of_mem _ he)
    simp only [addGroup]
    by_cases hk0 : e0.1 = r i0
    · rw [if_pos hk0]
      intro e he
      rcases List.mem_cons.mp he with h | h
      · subst h
        refine ⟨by simp, ?_⟩
        intro i hi
        rcases List.mem_append.mp hi with h2 | h2
        · exact hcoh0.2 i h2
        · simp at h2
          subst h2
          exact hk0.symm
      · exact hcohr e h
    · rw [if_neg hk0]
      intro e he
      rcases List.mem_cons.mp he with h | h
      · subst h
        exact hcoh0
      · exact ih i0 hcohr e h

/-- Two group maps built from root assignments with the same equality
pattern have the same buckets (keys may differ). -/
theorem addGroup_congr {κ1 κ2 : Type} [DecidableEq κ1] [DecidableEq κ2]
    (r1 : Nat → κ1) (r2 : Nat → κ2)
    (hpat : ∀ i j, r1 i = r1 j ↔ r2 i = r2 j) :
    ∀ (m1 : List (κ1 × List Nat)) (m2 : List (κ2 × List Nat)) (i0 : Nat),
      m1.map (fun e => e.2) = m2.map (fun e => e.2) →
      MapCoherent r1 m1 → MapCoherent r2 m2 →
      (addGroup m1 (r1 i0) i0).map (fun e => e.2) =
        (addGroup m2 (r2 i0) i0).map (fun e => e.2) := by
  intro m1
  induction m1 with
  | nil =>
    intro m2 i0 hsnd _ _
    cases m2 with
    | nil => simp [addGroup]
    | cons e2 rest2 => simp at hsnd
  | cons e1 rest1 ih =>
    intro m2 i0 hsnd hcoh1 hcoh2
    cases m2 with
    | nil => simp at hsnd
    | cons e2 rest2 =>
      simp only [List.map_cons, List.cons.injEq] at hsnd
      obtain ⟨hblk, htail⟩ := hsnd
      have hc1 := hcoh1 e1 (List.mem_cons_self _ _)
      have hc2 := hcoh2 e2 (List.mem_cons_self _ _)
      obtain ⟨w, hw⟩ : ∃ w, w ∈ e1.2 := by
        cases hb : e1.2 with
        | nil => exact absurd hb hc1.1
        | cons a l => exact ⟨a, hb ▸ List.mem_cons_self a l⟩
      have hw2 : w ∈ e2.2 := hblk ▸ hw
      have hcond : (e1.1 = r1 i0) ↔ (e2.1 = r2 i0) := by
        have ha := hc1.2 w hw
        have hb := hc2.2 w hw2
        constructor
        · intro h
          rw [← hb]
          exact (hpat w i0).mp (by rw [ha, h])
        · intro h
          rw [← ha]
          exact (hpat w i0).mpr (by rw [hb, h])
      simp only [addGroup]
      by_cases h1 : e1.1 = r1 i0
      · rw [if_pos h1, if_pos (hcond.mp h1)]
        simp only [List.map_cons, List.cons.injEq]
        exact ⟨by rw [hblk], htail⟩
      · rw [if_neg h1, if_neg (fun h => h1 (hcond.mpr h))]
        simp only [List.map_cons, List.cons.injEq]
        refine ⟨hblk, ?_⟩
        exact ih rest2 i0 htail
          (fun e he => hcoh1 e (List.mem_cons_of_mem _ he))
          (fun e he => hcoh2 e (List.mem_cons_of_mem _ he))

theorem groupMapFold_congr {κ1 κ2 : Type} [DecidableEq κ1] [DecidableEq κ2]
    (r1 : Nat → κ1) (r2 : Nat → κ2)
    (hpat : ∀ i j, r1 i = r1 j ↔ r2 i = r2 j) :
    ∀ (l : List Nat) (m1 : List (κ1 × List Nat)) (m2 : List (κ2 × List Nat)),
      m1.map (fun e => e.2) = m2.map (fun e => e.2) →
      MapCoherent r1 m1 → MapCoherent r2 m2 →
      (l.foldl (fun m i => addGroup m (r1 i) i) m1).map (fun e => e.2) =
        (l.foldl (fun m i => addGroup m (r2 i) i) m2).map (fun e => e.2) := by
  intro l
  induction l with
  | nil => intro m1 m2 hsnd _ _; exact hsnd
  | cons i0 rest ih =>
    intro m1 m2 hsnd hcoh1 hcoh2
    simp only [List.foldl_cons]
    exact ih _ _ (addGroup_congr r1 r2 hpat m1 m2 i0 hsnd hcoh1 hcoh2)
      (addGroup_coherent r1 m1 i0 hcoh1) (addGroup_coherent r2 m2 i0 hcoh2)

theorem groupMapFold_coherent {κ : Type} [DecidableEq κ] (r : Nat → κ) :
    ∀ (l : List Nat) (m : List (κ × List Nat)),
      MapCoherent r m →
      MapCoherent r (l.foldl (fun m i => addGroup m (r i) i) m) := by
  intro l
  induction l with
  | nil => intro m h; exact h
  | cons i0 rest ih =>
    intro m h
    simp only [List.foldl_cons]
    exact ih _ (addGroup_coherent r m i0 h)

theorem groupMapFold_keys_nodup {κ : Type} [DecidableEq κ] (r : Nat → κ) :
    ∀ (l : List Nat) (m : List (κ × List Nat)),
      (m.map (fun e => e.1)).Nodup →
      ((l.foldl (fun m i => addGroup m (r i) i) m).map (fun e => e.1)).Nodup := by
  intro l
  induction l with
  | nil => intro m h; exact h
  | cons i0 rest ih =>
    intro m h
    simp only [List.foldl_cons]
    exact ih _ (addGroup_keys_nodup m (r i0) i0 h)

/-- Buckets of a coherent map with distinct keys are pairwise disjoint. -/
theorem coherent_pairwise_disj {κ : Type} (r : Nat → κ) :
    ∀ (m : List (κ × List Nat)),
      MapCoherent r m → (m.map (fun e => e.1)).Nodup →
      (m.map (fun e => e.2)).Pairwise (fun b1 b2 => ∀ i, i ∈ b1 → i ∉ b2) := by
  intro m
  induction m with
  | nil => intro _ _; simp
  | cons e rest ih =>
    intro hcoh hnd
    simp only [List.map_cons, List.nodup_cons] at hnd
    simp only [List.map_cons, List.pairwise_cons]
    constructor
    · intro b2 hb2 i hi1 hi2
      obtain ⟨e2, he2, hsnd⟩ := List.mem_map.mp hb2
      have h1 := (hcoh e (List.mem_cons_self _ _)).2 i hi1
      have h2 := (hcoh e2 (List.mem_cons_of_mem _ he2)).2 i (hsnd ▸ hi2)
      apply hnd.1
      rw [← h1, h2]
      exact List.mem_map_of_mem _ he2
    · exact ih (fun e2 he2 => hcoh e2 (List.mem_cons_of_mem _ he2)) hnd.2

/-- The collection loop returns the same buckets as grouping by the initial
roots: each `find` answers the pre-existing root and leaves every root
unchanged. -/
theorem collectGroups_spec (uf0 : UnionFind) (n : Nat) (hInv : UFInv uf0) :
    (collectGroups uf0 n).2 =
      (List.range n).foldl (fun m i => addGroup m (rootD uf0.parent i) i) [] := by
  suffices h : ∀ (l : List Nat) (uf : UnionFind) (m : List (Nat × List Nat)),
      UFInv uf → (∀ y, rootD uf.parent y = rootD uf0.parent y) →
      (l.foldl (fun acc i =>
          let fr := ufFind acc.1 i
          (fr.1, addGroup acc.2 fr.2 i)) (uf, m)).2 =
        l.foldl (fun m i => addGroup m (rootD uf0.parent i) i) m by
    exact h (List.range n) uf0 [] hInv (fun y => rfl)
  intro l
  induction l with
  | nil => intro uf m _ _; rfl
  | cons i0 rest ih =>
    intro uf m hInv2 hpres
    simp only [List.foldl_cons]
    obtain ⟨hfst, _, _, hinv3, hpres3⟩ := ufFind_spec uf i0 hInv2
    rw [hfst, hpres i0]
    exact ih (ufFind uf i0).1 _ hinv3 (fun y => (hpres3 y).trans (hpres y))

/-! ## Matcher-level reductions -/

/-- The pairs on which the BK-tree phase calls `union`, in call order:
for each index, the neighbours found in the tree built from the earlier
indices. -/
def pairsFrom (threshold : Nat) (images : List ImageInfo) :
    BKTree → List Nat → List (Nat × Nat)
  | _, [] => []
  | t, i :: rest =>
      (bkFindWithinDistance t (images.getD i default).hash threshold).map
          (fun j => (i, j)) ++
        pairsFrom threshold images
          (bkTreeInsert t (images.getD i default).hash i) rest

theorem ufUnionPairs_append (uf : UnionFind) (xs ys : List (Nat × Nat)) :
    ufUnionPairs uf (xs ++ ys) = ufUnionPairs (ufUnionPairs uf xs) ys := by
  unfold ufUnionPairs
  exact List.foldl_append _ _ xs ys

theorem foldl_union_map (i : Nat) :
    ∀ (js : List Nat) (uf : UnionFind),
      js.foldl (fun u j => ufUnion u i j) uf =
        ufUnionPairs uf (js.map (fun j => (i, j))) := by
  intro js
  induction js with
  | nil => intro uf; rfl
  | cons j rest ih =>
    intro uf
    simp only [List.foldl_cons, List.map_cons]
    rw [ih]
    rfl

/-- The BK-tree phase is `union` folded over `pairsFrom`. -/
theorem perceptual_phase_eq (threshold : Nat) (images : List ImageInfo) :
    ∀ (l : List Nat) (uf : UnionFind) (t : BKTree),
      (l.foldl
        (fun (st : UnionFind × BKTree) i =>
          let img := images.getD i default
          let neighbors := bkFindWithinDistance st.2 img.hash threshold
          let uf := neighbors.foldl (fun u j => ufUnion u i j) st.1
          (uf, bkTreeInsert st.2 img.hash i)) (uf, t)).1 =
      ufUnionPairs uf (pairsFrom threshold images t l) := by
  intro l
  induction l with
  | nil => intro uf t; rfl
  | cons i rest ih =>
    intro uf t
    simp only [List.foldl_cons, pairsFrom]
    rw [ufUnionPairs_append, ih, foldl_union_map]

/-- The pairs produced by the BK-tree phase over indices `k, ..., k + c - 1`,
starting from a tree holding exactly the earlier items: exactly the pairs
`(a, b)` with `b < a` within Hamming distance of each other. -/
theorem pairsFrom_mem (threshold : Nat) (images : List ImageInfo) :
    ∀ (c k : Nat) (t : BKTree), bkTreeWf t = true →
      (∀ p, p ∈ bkTreeMem t ↔
        ∃ j, j < k ∧ p = ((images.getD j default).hash, j)) →
      ∀ a b, ((a, b) ∈ pairsFrom threshold images t (List.range' k c) ↔
        (k ≤ a ∧ a < k + c ∧ b < a ∧
          HammingDistance (images.getD a default).hash
            (images.getD b default).hash ≤ threshold)) := by
  intro c
  induction c with
  | zero =>
    intro k t _ _ a b
    simp [pairsFrom]
    omega
  | succ c ih =>
    intro k t hwf hmem a b
    rw [List.range'_succ]
    simp only [pairsFrom, List.mem_append, List.mem_map]
    have hsearch : ∀ j, j ∈ bkFindWithinDistance t (images.getD k default).hash threshold ↔
        (j < k ∧ HammingDistance (images.getD k default).hash
          (images.getD j default).hash ≤ threshold) := by
      intro j
      rw [bkFindWithinDistance_iff t _ _ j hwf]
      constructor
      · rintro ⟨h, hmem2, hd⟩
        obtain ⟨j2, hj2, hp⟩ := (hmem (h, j)).mp hmem2
        have h1 : h = (images.getD j2 default).hash := congrArg Prod.fst hp
        have h2 : j = j2 := congrArg Prod.snd hp
        subst h2
        rw [h1] at hd
        exact ⟨hj2, hd⟩
      · rintro ⟨hj, hd⟩
        exact ⟨(images.getD j default).hash, (hmem _).mpr ⟨j, hj, rfl⟩, hd⟩
    have hnext : ∀ p, p ∈ bkTreeMem (bkTreeInsert t (images.getD k default).hash k) ↔
        ∃ j, j < k + 1 ∧ p = ((images.getD j default).hash, j) := by
      intro p
      rw [bkTreeMem_insert]
      constructor
      · rintro (h | h)
        · exact ⟨k, by omega, h⟩
        · obtain ⟨j, hj, hp⟩ := (hmem p).mp h
          exact ⟨j, by omega, hp⟩
      · rintro ⟨j, hj, hp⟩
        by_cases hjk : j = k
        · subst hjk
          exact Or.inl hp
        · exact Or.inr ((hmem p).mpr ⟨j, by omega, hp⟩)
    rw [ih (k + 1) _ (bkTreeWf_insert t _ _ hwf) hnext a b]
    constructor
    · rintro (⟨j, hj, hp⟩ | h)
      · have ha : a = k := (congrArg Prod.fst hp).symm
        have hb : b = j := (congrArg Prod.snd hp).symm
        subst ha
        subst hb
        obtain ⟨hjk, hd⟩ := (hsearch b).mp hj
        exact ⟨by omega, by omega, hjk, hd⟩
      · obtain ⟨h1, h2, h3, h4⟩ := h
        exact ⟨by omega, by omega, h3, h4⟩
    · rintro ⟨h1, h2, h3, h4⟩
      by_cases hak : a = k
      · subst hak
        exact Or.inl ⟨b, (hsearch b).mpr ⟨h3, h4⟩, rfl⟩
      · exact Or.inr ⟨by omega, by omega, h3, h4⟩

/-- The pairs of the brute-force O(n²) scan. -/
def brutePairs (threshold : Nat) (images : List ImageInfo) (n : Nat) :
    List (Nat × Nat) :=
  (List.range n).flatMap
    (fun i =>
      ((List.range' (i + 1) (n - (i + 1))).filter
        (fun j => decide (HammingDistance (images.getD i default).hash
          (images.getD j default).hash ≤ threshold))).map (fun j => (i, j)))

theorem foldl_union_filter (threshold : Nat) (images : List ImageInfo) (i : Nat) :
    ∀ (js : List Nat) (uf : UnionFind),
      js.foldl
        (fun u j =>
          if HammingDistance (images.getD i default).hash
              (images.getD j default).hash ≤ threshold
          then ufUnion u i j else u) uf =
        ufUnionPairs uf
          ((js.filter (fun j => decide (HammingDistance (images.getD i default).hash
            (images.getD j default).hash ≤ threshold))).map (fun j => (i, j))) := by
  intro js
  induction js with
  | nil => intro uf; rfl
  | cons j rest ih =>
    intro uf
    simp only [List.foldl_cons, List.filter_cons]
    by_cases hd : HammingDistance (images.getD i default).hash
        (images.getD j default).hash ≤ threshold
    · rw [if_pos hd]
      simp only [decide_eq_true_eq, hd, if_pos, List.map_cons]
      rw [ih]
      rfl
    · rw [if_neg hd]
      simp only [decide_eq_true_eq, hd]
      rw [if_neg (by simpa using hd)]
      exact ih uf

/-- The brute-force nested loops are `union` folded over `brutePairs`. -/
theorem grouper_phase_eq (threshold : Nat) (images : List ImageInfo) (n : Nat) :
    ∀ (is : List Nat) (uf : UnionFind),
      is.foldl
        (fun uf i =>
          (List.range' (i + 1) (n - (i + 1))).foldl
            (fun u j =>
              if HammingDistance (images.getD i default).hash
                  (images.getD j default).hash ≤ threshold
              then ufUnion u i j else u) uf) uf =
        ufUnionPairs uf (is.flatMap
          (fun i =>
            ((List.range' (i + 1) (n - (i + 1))).filter
              (fun j => decide (HammingDistance (images.getD i default).hash
                (images.getD j default).hash ≤ threshold))).map (fun j => (i, j)))) := by
  intro is
  induction is with
  | nil => intro uf; rfl
  | cons i rest ih =>
    intro uf
    simp only [List.foldl_cons, List.flatMap_cons]
    rw [ufUnionPairs_append, ih, foldl_union_filter]

theorem brutePairs_mem (threshold : Nat) (images : List ImageInfo) (n : Nat)
    (a b : Nat) :
    (a, b) ∈ brutePairs threshold images n ↔
      (a < n ∧ a < b ∧ b < n ∧
        HammingDistance (images.getD a default).hash
          (images.getD b default).hash ≤ threshold) := by
  unfold brutePairs
  rw [List.mem_flatMap]
  constructor
  · rintro ⟨i, hi, hmem⟩
    obtain ⟨j, hj, hp⟩ := List.mem_map.mp hmem
    have ha : i = a := congrArg Prod.fst hp
    have hb : j = b := congrArg Prod.snd hp
    subst ha
    subst hb
    obtain ⟨hj2, hd⟩ := List.mem_filter.mp hj
    have hrange := List.mem_range'_1.mp hj2
    simp only [decide_eq_true_eq] at hd
    refine ⟨List.mem_range.mp hi, by omega, by omega, hd⟩
  · rintro ⟨h1, h2, h3, h4⟩
    refine ⟨a, List.mem_range.mpr h1, ?_⟩
    rw [List.mem_map]
    refine ⟨b, ?_, rfl⟩
    rw [List.mem_filter]
    refine ⟨List.mem_range'_1.mpr (by omega), by simpa using h4⟩

theorem perceptualFindGroups_core (threshold : Nat) (images : List ImageInfo)
    (hn : ¬ images.length < 2) :
    perceptualFindGroups threshold images =
      buildGroups images
        ((collectGroups
          (ufUnionPairs (newUnionFind images.length)
            (pairsFrom threshold images ⟨none⟩ (List.range images.length)))
          images.length).2.map (fun e => e.2)) := by
  unfold perceptualFindGroups
  rw [if_neg hn]
  show buildGroups images
      ((collectGroups
        ((List.range images.length).foldl
          (fun (st : UnionFind × BKTree) i =>
            let img := images.getD i default
            let neighbors := bkFindWithinDistance st.2 img.hash threshold
            let uf := neighbors.foldl (fun u j => ufUnion u i j) st.1
            (uf, bkTreeInsert st.2 img.hash i))
          (newUnionFind images.length, ⟨none⟩)).1
        images.length).2.map (fun e => e.2)) = _
  rw [perceptual_phase_eq threshold images (List.range images.length)
    (newUnionFind images.length) ⟨none⟩]

theorem grouperFindGroups_core (threshold : Nat) (images : List ImageInfo)
    (hn : ¬ images.length < 2) :
    grouperFindGroups threshold images =
      buildGroups images
        ((collectGroups
          (ufUnionPairs (newUnionFind images.length)
            (brutePairs threshold images images.length))
          images.length).2.map (fun e => e.2)) := by
  unfold grouperFindGroups
  rw [if_neg hn]
  show buildGroups images
      ((collectGroups
        ((List.range images.length).foldl
          (fun uf i =>
            (List.range' (i + 1) (images.length - (i + 1))).foldl
              (fun u j =>
                if HammingDistance (images.getD i default).hash
                    (images.getD j default).hash ≤ threshold
                then ufUnion u i j else u) uf)
          (newUnionFind images.length))
        images.length).2.map (fun e => e.2)) = _
  rw [grouper_phase_eq threshold images images.length (List.range images.length)
    (newUnionFind images.length)]
  rfl

/-- The BK-tree matcher and the brute-force matcher agree exactly. -/
theorem perceptual_eq_grouper (threshold : Nat) (images : List ImageInfo) :
    perceptualFindGroups threshold images = grouperFindGroups threshold images := by
  by_cases hn : images.length < 2
  · unfold perceptualFindGroups grouperFindGroups
    rw [if_pos hn, if_pos hn]
  · rw [perceptualFindGroups_core threshold images hn,
        grouperFindGroups_core threshold images hn]
    have hApairs : ∀ a b,
        ((a, b) ∈ pairsFrom threshold images ⟨none⟩ (List.range images.length) ↔
        (a < images.length ∧ b < a ∧
          HammingDistance (images.getD a default).hash
            (images.getD b default).hash ≤ threshold)) := by
      intro a b
      rw [List.range_eq_range']
      rw [pairsFrom_mem threshold images images.length 0 ⟨none⟩ rfl
        (by intro p; simp [bkTreeMem])]
      constructor
      · rintro ⟨_, h2, h3, h4⟩
        exact ⟨by omega, h3, h4⟩
      · rintro ⟨h1, h2, h3⟩
        exact ⟨by omega, by omega, h2, h3⟩
    have hBpairs : ∀ a b,
        ((a, b) ∈ brutePairs threshold images images.length ↔
        (a < images.length ∧ a < b ∧ b < images.length ∧
          HammingDistance (images.getD a default).hash
            (images.getD b default).hash ≤ threshold)) :=
      fun a b => brutePairs_mem threshold images images.length a b
    have hmemA : ∀ p ∈ pairsFrom threshold images ⟨none⟩ (List.range images.length),
        p.1 < images.length ∧ p.2 < images.length := by
      intro p hp
      have := (hApairs p.1 p.2).mp hp
      omega
    have hmemB : ∀ p ∈ brutePairs threshold images images.length,
        p.1 < images.length ∧ p.2 < images.length := by
      intro p hp
      have := (hBpairs p.1 p.2).mp hp
      omega
    have hagree : ∀ a b,
        (((a, b) ∈ pairsFrom threshold images ⟨none⟩ (List.range images.length)) ∨
          ((b, a) ∈ pairsFrom threshold images ⟨none⟩ (List.range images.length))) ↔
        (((a, b) ∈ brutePairs threshold images images.length) ∨
          ((b, a) ∈ brutePairs threshold images images.length)) := by
      intro a b
      rw [hApairs a b, hApairs b a, hBpairs a b, hBpairs b a]
      have hcomm : HammingDistance (images.getD a default).hash
            (images.getD b default).hash =
          HammingDistance (images.getD b default).hash
            (images.getD a default).hash :=
        HammingDistance_comm _ _
      constructor
      · rintro (⟨h1, h2, h3⟩ | ⟨h1, h2, h3⟩)
        · exact Or.inr ⟨by omega, h2, h1, by rw [← hcomm]; exact h3⟩
        · exact Or.inl ⟨by omega, h2, h1, by rw [hcomm]; exact h3⟩
      · rintro (⟨h1, h2, h3, h4⟩ | ⟨h1, h2, h3, h4⟩)
        · exact Or.inr ⟨h3, h2, by rw [← hcomm]; exact h4⟩
        · exact Or.inl ⟨h3, h2, by rw [hcomm]; exact h4⟩
    obtain ⟨hinvA, hlenA, _⟩ := ufUnionPairs_new_spec images.length _ hmemA
    obtain ⟨hinvB, hlenB, _⟩ := ufUnionPairs_new_spec images.length _ hmemB
    have hpat := ufUnionPairs_new_congr images.length _ _ hmemA hmemB hagree
    apply congrArg (buildGroups images)
    rw [collectGroups_spec _ images.length hinvA,
        collectGroups_spec _ images.length hinvB]
    exact groupMapFold_congr _ _ hpat (List.range images.length) [] [] rfl
      (fun e he => by simp at he) (fun e he => by simp at he)

/-! ## Slice-state lemmas (`GroupID` writes) -/

theorem set_getD_self {α : Type} (l : List α) (i : Nat) (d : α) :
    l.set i (l.getD i d) = l := by
  induction l generalizing i with
  | nil => rfl
  | cons a t ih =>
    cases i with
    | zero => simp [List.getD]
    | succ i =>
      rw [List.getD_cons_succ]
      show a :: t.set i (t.getD i d) = a :: t
      rw [ih i]

theorem getD_map {α β : Type} (f : α → β) (l : List α) (i : Nat) (d : α) :
    (l.map f).getD i (f d) = f (l.getD i d) := by
  induction l generalizing i with
  | nil => rfl
  | cons a t ih =>
    cases i with
    | zero => rfl
    | succ i => simpa using ih i

theorem map_set {α β : Type} (f : α → β) (l : List α) (i : Nat) (a : α) :
    (l.set i a).map f = (l.map f).set i (f a) := by
  induction l generalizing i with
  | nil => rfl
  | cons x t ih =>
    cases i with
    | zero => rfl
    | succ i => simpa using ih i

/-- The `GroupID` writes change nothing but the `GroupID` field of the
slice. -/
theorem applyGroupIDs_clear (images : List ImageInfo) (gs : List DuplicateGroup) :
    (applyGroupIDs images gs).map (fun img => setGid img 0) =
      images.map (fun img => setGid img 0) := by
  unfold applyGroupIDs
  induction gs generalizing images with
  | nil => rfl
  | cons g rest ih =>
    simp only [List.foldl_cons]
    rw [ih]
    generalize g.images = ps
    induction ps generalizing images with
    | nil => rfl
    | cons p tl ih2 =>
      simp only [List.foldl_cons]
      rw [ih2]
      have h1 : (images.set p.1 (setGid (images.getD p.1 default) g.id)).map
          (fun img => setGid img 0) = images.map (fun img => setGid img 0) := by
        rw [map_set]
        have h2 : setGid (setGid (images.getD p.1 default) g.id) 0 =
            setGid (images.getD p.1 default) 0 := rfl
        rw [h2, ← getD_map (fun img => setGid img 0) images p.1 default,
          set_getD_self]
      rw [h1]

theorem buildGroups_snd (images : List ImageInfo) (bs : List (List Nat)) :
    (buildGroups images bs).2 = applyGroupIDs images (buildGroups images bs).1 := rfl

/-! ## Exact matcher characterization -/

/-- The content-hash bucket fold of `ExactMatcher.FindGroups`. -/
def exactHashMap (images : List ImageInfo) (l : List Nat) : List (String × List Nat) :=
  l.foldl
    (fun (m : List (String × List Nat)) i =>
      let img := images.getD i default
      if img.fileHash ≠ "" then addGroup m img.fileHash i else m)
    []

theorem exactFindGroups_core (images : List ImageInfo) (hn : ¬ images.length < 2) :
    ExactMatcherFindGroups images =
      buildGroups images
        ((exactHashMap images (List.range images.length)).map (fun e => e.2)) := by
  unfold ExactMatcherFindGroups
  rw [if_neg hn]
  rfl

theorem exactHashMap_mem (images : List ImageInfo) :
    ∀ (l : List Nat) (m : List (String × List Nat)) (k : String) (i : Nat),
      ((∃ e ∈ l.foldl
          (fun (m : List (String × List Nat)) i =>
            let img := images.getD i default
            if img.fileHash ≠ "" then addGroup m img.fileHash i else m) m,
          e.1 = k ∧ i ∈ e.2) ↔
        ((i ∈ l ∧ (images.getD i default).fileHash = k ∧ k ≠ "") ∨
          ∃ e ∈ m, e.1 = k ∧ i ∈ e.2)) := by
  intro l
  induction l with
  | nil =>
    intro m k i
    simp
  | cons i0 rest ih =>
    intro m k i
    simp only [List.foldl_cons]
    by_cases hh : (images.getD i0 default).fileHash ≠ ""
    · rw [if_pos hh]
      rw [ih _ k i]
      rw [addGroup_mem m (images.getD i0 default).fileHash i0 k i]
      constructor
      · rintro (h | (⟨hk, hi⟩ | h))
        · exact Or.inl ⟨List.mem_cons_of_mem _ h.1, h.2⟩
        · subst hi
          exact Or.inl ⟨List.mem_cons_self _ _, by rw [hk], by rw [hk]; exact hh⟩
        · exact Or.inr h
      · rintro (⟨hmem, hk, hne⟩ | h)
        · rcases List.mem_cons.mp hmem with h2 | h2
          · subst h2
            exact Or.inr (Or.inl ⟨hk.symm, rfl⟩)
          · exact Or.inl ⟨h2, hk, hne⟩
        · exact Or.inr (Or.inr h)
    · rw [if_neg hh]
      rw [ih _ k i]
      push_neg at hh
      constructor
      · rintro (h | h)
        · exact Or.inl ⟨List.mem_cons_of_mem _ h.1, h.2⟩
        · exact Or.inr h
      · rintro (⟨hmem, hk, hne⟩ | h)
        · rcases List.mem_cons.mp hmem with h2 | h2
          · subst h2
            rw [hh] at hk
            exact absurd hk.symm hne
          · exact Or.inl ⟨h2, hk, hne⟩
        · exact Or.inr h

theorem exactHashMap_coherent (images : List ImageInfo) (l : List Nat) :
    MapCoherent (fun i => (images.getD i default).fileHash) (exactHashMap images l) := by
  unfold exactHashMap
  suffices h : ∀ (m : List (String × List Nat)),
      MapCoherent (fun i => (images.getD i default).fileHash) m →
      MapCoherent (fun i => (images.getD i default).fileHash)
        (l.foldl (fun m i =>
          let img := images.getD i default
          if img.fileHash ≠ "" then addGroup m img.fileHash i else m) m) by
    exact h [] (fun e he => by simp at he)
  induction l with
  | nil => intro m h; exact h
  | cons i0 rest ih =>
    intro m h
    simp only [List.foldl_cons]
    apply ih
    by_cases hh : (images.getD i0 default).fileHash ≠ ""
    · rw [if_pos hh]
      exact addGroup_coherent _ m i0 h
    · rw [if_neg hh]
      exact h

theorem exactHashMap_nodup (images : List ImageInfo) (l : List Nat) :
    ((exactHashMap images l).map (fun e => e.1)).Nodup := by
  unfold exactHashMap
  suffices h : ∀ (m : List (String × List Nat)),
      (m.map (fun e => e.1)).Nodup →
      ((l.foldl (fun m i =>
          let img := images.getD i default
          if img.fileHash ≠ "" then addGroup m img.fileHash i else m) m).map
        (fun e => e.1)).Nodup by
    exact h [] (by simp)
  induction l with
  | nil => intro m h; exact h
  | cons i0 rest ih =>
    intro m h
    simp only [List.foldl_cons]
    apply ih
    by_cases hh : (images.getD i0 default).fileHash ≠ ""
    · rw [if_pos hh]
      exact addGroup_keys_nodup m _ i0 h
    · rw [if_neg hh]
      exact h

/-! ## Perceptual bucket properties -/

theorem pairsFrom_range_mem (t : Nat) (images : List ImageInfo) (a b : Nat) :
    ((a, b) ∈ pairsFrom t images ⟨none⟩ (List.range images.length) ↔
      (a < images.length ∧ b < a ∧
        HammingDistance (images.getD a default).hash
          (images.getD b default).hash ≤ t)) := by
  rw [List.range_eq_range']
  rw [pairsFrom_mem t images images.length 0 ⟨none⟩ rfl
    (by intro p; simp [bkTreeMem])]
  constructor
  · rintro ⟨_, h2, h3, h4⟩
    exact ⟨by omega, h3, h4⟩
  · rintro ⟨h1, h2, h3⟩
    exact ⟨by omega, by omega, h2, h3⟩

theorem perceptual_pairs_range (t : Nat) (images : List ImageInfo) :
    ∀ p ∈ pairsFrom t images ⟨none⟩ (List.range images.length),
      p.1 < images.length ∧ p.2 < images.length := by
  intro p hp
  have := (pairsFrom_range_mem t images p.1 p.2).mp hp
  omega

theorem perceptual_uf_inv (t : Nat) (images : List ImageInfo) :
    UFInv (ufUnionPairs (newUnionFind images.length)
      (pairsFrom t images ⟨none⟩ (List.range images.length))) :=
  (ufUnionPairs_new_spec images.length _ (perceptual_pairs_range t images)).1

theorem mapCoherent_nil {κ : Type} (r : Nat → κ) : MapCoherent r ([] : List (κ × List Nat)) :=
  fun e he => absurd he (List.not_mem_nil e)

/-- The buckets grouped by root are pairwise disjoint. -/
theorem rootFold_pairwise_disj (r : Nat → Nat) (l : List Nat) :
    ((l.foldl (fun m i => addGroup m (r i) i) []).map (fun e => e.2)).Pairwise
      (fun b1 b2 => ∀ i, i ∈ b1 → i ∉ b2) := by
  apply coherent_pairwise_disj r
  · exact groupMapFold_coherent r l [] (mapCoherent_nil r)
  · exact groupMapFold_keys_nodup r l [] (by simp)

/-! ## Group-level consequences of `buildGroups` -/

theorem buildGroups_mem_length (images : List ImageInfo) (bs : List (List Nat))
    (g : DuplicateGroup) (hg : g ∈ (buildGroups images bs).1) :
    2 ≤ g.images.length := by
  rw [buildGroups_fst] at hg
  obtain ⟨b, _, hblen, k, hk⟩ := builtGroups_mem images bs 1 g hg
  rw [hk, selectKeepAndRemove_length]
  simp only [List.length_map]
  omega

theorem buildGroups_co_mem (images : List ImageInfo) (bs : List (List Nat))
    (i j : Nat) :
    (∃ g ∈ (buildGroups images bs).1,
        i ∈ g.images.map (fun p => p.1) ∧ j ∈ g.images.map (fun p => p.1)) ↔
      ∃ b ∈ bs, ¬ b.length < 2 ∧ i ∈ b ∧ j ∈ b := by
  rw [buildGroups_fst]
  constructor
  · rintro ⟨g, hg, hi, hj⟩
    obtain ⟨b, hb, hblen, k, hk⟩ := builtGroups_mem images bs 1 g hg
    rw [hk, mkGroup_idx] at hi hj
    exact ⟨b, hb, hblen, hi, hj⟩
  · rintro ⟨b, hb, hblen, hi, hj⟩
    obtain ⟨g, hg, hgi⟩ := builtGroups_mem2 images bs 1 b hb hblen
    exact ⟨g, hg, by rw [hgi]; exact hi, by rw [hgi]; exact hj⟩

theorem buildGroups_mem_idx (images : List ImageInfo) (bs : List (List Nat))
    (g : DuplicateGroup) (hg : g ∈ (buildGroups images bs).1) (i : Nat)
    (hi : i ∈ g.images.map (fun p => p.1)) :
    ∃ b ∈ bs, i ∈ b := by
  rw [buildGroups_fst] at hg
  obtain ⟨b, hb, _, k, hk⟩ := builtGroups_mem images bs 1 g hg
  rw [hk, mkGroup_idx] at hi
  exact ⟨b, hb, hi⟩

theorem two_mem_length (l : List Nat) (i j : Nat) (hi : i ∈ l) (hj : j ∈ l)
    (hij : i ≠ j) : ¬ l.length < 2 := by
  intro hlen
  cases l with
  | nil => simp at hi
  | cons a rest =>
    cases rest with
    | nil =>
      simp at hi hj
      exact hij (hi.trans hj.symm)
    | cons b rest2 => simp at hlen; omega

/-! ## Final support lemmas -/

theorem perceptualFindGroups_lt2 (threshold : Nat) (images : List ImageInfo)
    (hn : images.length < 2) :
    perceptualFindGroups threshold images = ([], images) := by
  unfold perceptualFindGroups
  rw [if_pos hn]

theorem grouperFindGroups_lt2 (threshold : Nat) (images : List ImageInfo)
    (hn : images.length < 2) :
    grouperFindGroups threshold images = ([], images) := by
  unfold grouperFindGroups
  rw [if_pos hn]

/-- `setGid` does not touch the path, so `selectKeepAndRemove` leaves the
member paths unchanged. -/
theorem selectKeepAndRemove_paths (g : DuplicateGroup) :
    (selectKeepAndRemove g).images.map (fun p => p.2.path) =
      g.images.map (fun p => p.2.path) := by
  unfold selectKeepAndRemove
  split_ifs with h
  · rfl
  · simp [setGid]

/-- `selectKeepAndRemove_spec` with the path hypothesis moved to the output
side (where every caller of `buildGroups` sees it). -/
theorem selectKeep_final (g0 : DuplicateGroup) (hne : g0.images ≠ [])
    (hpaths : ((selectKeepAndRemove g0).images.map (fun p => p.2.path)).Nodup) :
    ∃ k, (selectKeepAndRemove g0).keep = some k ∧
      k ∈ (selectKeepAndRemove g0).images ∧
      (∀ m ∈ (selectKeepAndRemove g0).images, m ≠ k → imgSortLess k.2 m.2 = true) ∧
      (selectKeepAndRemove g0).remove.length + 1 =
        (selectKeepAndRemove g0).images.length ∧
      (k :: (selectKeepAndRemove g0).remove).Perm (selectKeepAndRemove g0).images ∧
      k ∉ (selectKeepAndRemove g0).remove := by
  rw [selectKeepAndRemove_paths] at hpaths
  exact selectKeepAndRemove_spec g0 hne hpaths

theorem keys_inj {κ : Type} (m : List (κ × List Nat))
    (hnd : (m.map (fun e => e.1)).Nodup) :
    ∀ e1 ∈ m, ∀ e2 ∈ m, e1.1 = e2.1 → e1 = e2 :=
  fun e1 h1 e2 h2 hk => List.inj_on_of_nodup_map hnd h1 h2 hk

instance : Inhabited DuplicateGroup := ⟨{ id := 0, images := [] }⟩

/-! ## Concrete inputs used by the claim witnesses and counterexamples -/

/-- Two items whose fingerprints differ in one bit. -/
def imgsW : List ImageInfo :=
  [{ path := "a.jpg", hash := 0, score := 1 }, { path := "b.jpg", hash := 1, score := 2 }]

/-- The single group that the perceptual matcher builds from `imgsW`. -/
def gW : DuplicateGroup :=
  selectKeepAndRemove
    { id := 1,
      images := [(0, { path := "a.jpg", hash := 0, score := 1 }),
                 (1, { path := "b.jpg", hash := 1, score := 2 })] }

theorem gW_mem : gW ∈ (PerceptualMatcherFindGroups 10 imgsW).1 := by
  show gW ∈ (perceptualFindGroups 10 imgsW).1
  rw [perceptualFindGroups_core 10 imgsW (by decide), buildGroups_fst]
  have hbs : ((collectGroups
      (ufUnionPairs (newUnionFind imgsW.length)
        (pairsFrom 10 imgsW ⟨none⟩ (List.range imgsW.length)))
      imgsW.length).2.map (fun e => e.2)) = [[0, 1]] := by decide
  rw [hbs, builtGroups_cons, if_neg (by decide), builtGroups_nil]
  exact List.mem_singleton.mpr rfl

/-- Two items at Hamming distance 20: inside a 200 threshold, outside 10. -/
def imgsC2 : List ImageInfo :=
  [{ path := "a.jpg", hash := 0 }, { path := "b.jpg", hash := 1048575 }]

/-- Two items with identical fingerprints (and group ID 0 on input). -/
def imgsC6 : List ImageInfo :=
  [{ path := "a.jpg", hash := 0 }, { path := "b.jpg", hash := 0 }]

/-- Two items sharing a content hash, one with an empty content hash. -/
def imgsE : List ImageInfo :=
  [{ path := "a.jpg", fileHash := "h1" }, { path := "b.jpg", fileHash := "h1" },
   { path := "c.jpg", fileHash := "" }]

/-! ## The claims -/

/-- C1: for every threshold and every item list, the BK-tree-based
`PerceptualMatcher.FindGroups` yields exactly the same partition into
clusters — compared as sets of member keys, ignoring Keep/Remove and IDs —
as the brute-force pairwise scan of `Grouper.FindGroups`, which unions every
pair within the threshold and keeps the components of size ≥ 2. -/
theorem spec_C1 (threshold : Int) (images : List ImageInfo) :
    ((PerceptualMatcherFindGroups threshold images).1.map
        (fun g => (g.images.map (fun p => p.1)).toFinset)).toFinset =
      ((GrouperFindGroups threshold images).1.map
        (fun g => (g.images.map (fun p => p.1)).toFinset)).toFinset := by
  unfold PerceptualMatcherFindGroups GrouperFindGroups NewPerceptualMatcher NewGrouper
  rw [perceptual_eq_grouper]

/-- C4: `HammingDistance` is a metric on 64-bit fingerprints: reflexive
distance zero, symmetric, triangle inequality, and bounded by 0 and 64
(values are naturals, so 0 ≤ d is the lower bound). -/
theorem spec_C4 (a b c : Nat) (ha : a < 2 ^ 64) (hb : b < 2 ^ 64)
    (hc : c < 2 ^ 64) :
    HammingDistance a a = 0 ∧
    HammingDistance a b = HammingDistance b a ∧
    HammingDistance a b ≤ HammingDistance a c + HammingDistance c b ∧
    0 ≤ HammingDistance a b ∧ HammingDistance a b ≤ 64 :=
  ⟨HammingDistance_self a, HammingDistance_comm a b,
    HammingDistance_triangle a b c, Nat.zero_le _,
    HammingDistance_le_64 a b ha hb⟩

theorem spec_C4_witness :
    (15 : Nat) < 2 ^ 64 ∧ (9 : Nat) < 2 ^ 64 ∧ (5 : Nat) < 2 ^ 64 ∧
      (HammingDistance 15 15 = 0 ∧
        HammingDistance 15 9 = HammingDistance 9 15 ∧
        HammingDistance 15 9 ≤ HammingDistance 15 5 + HammingDistance 5 9 ∧
        0 ≤ HammingDistance 15 9 ∧ HammingDistance 15 9 ≤ 64) :=
  ⟨by decide, by decide, by decide, spec_C4 15 9 5 (by decide) (by decide) (by decide)⟩

/-- C5: after any sequence of `insert(hash, index)` calls into an initially
empty BK-tree, `findWithinDistance(q, r)` returns exactly the indices whose
inserted fingerprint is within Hamming distance `r` of `q`: sound (every
returned index qualifies) and complete (no qualifying index is missed by the
triangle-inequality pruning). -/
theorem spec_C5 (inserts : List (Nat × Nat)) (q r i : Nat) :
    i ∈ bkFindWithinDistance (bkInsertAll inserts) q r ↔
      ∃ h, (h, i) ∈ inserts ∧ HammingDistance q h ≤ r := by
  obtain ⟨hwf, hmem⟩ := bkInsertAll_wf_mem inserts
  rw [bkFindWithinDistance_iff _ q r i hwf]
  constructor
  · rintro ⟨h, hm, hd⟩
    exact ⟨h, (hmem _).mp hm, hd⟩
  · rintro ⟨h, hm, hd⟩
    exact ⟨h, (hmem _).mpr hm, hd⟩

/-- C9: on an input with fewer than 2 items, every `FindGroups` (perceptual,
brute force and exact) returns an empty cluster list. -/
theorem spec_C9 (threshold : Int) (images : List ImageInfo)
    (h : images.length < 2) :
    (PerceptualMatcherFindGroups threshold images).1 = [] ∧
    (GrouperFindGroups threshold images).1 = [] ∧
    (ExactMatcherFindGroups images).1 = [] := by
  refine ⟨?_, ?_, ?_⟩
  · unfold PerceptualMatcherFindGroups
    rw [perceptualFindGroups_lt2 _ _ h]
  · unfold GrouperFindGroups
    rw [grouperFindGroups_lt2 _ _ h]
  · unfold ExactMatcherFindGroups
    rw [if_pos h]

theorem spec_C9_witness :
    ([] : List ImageInfo).length < 2 ∧
      ((PerceptualMatcherFindGroups 10 []).1 = [] ∧
        (GrouperFindGroups 10 []).1 = [] ∧
        (ExactMatcherFindGroups []).1 = []) :=
  ⟨by decide, spec_C9 10 [] (by decide)⟩

/-- C2 counterexample: `NewPerceptualMatcher` only replaces a *negative*
threshold by the default 10 (`if threshold < 0`); 200 is kept as-is, and on
two items at Hamming distance 20 the matcher built with 200 clusters them
while the one built with 10 does not. -/
theorem spec_C2_counterexample :
    (PerceptualMatcherFindGroups 200 imgsC2).1.length ≠
      (PerceptualMatcherFindGroups 10 imgsC2).1.length := by
  show (perceptualFindGroups 200 imgsC2).1.length ≠
    (perceptualFindGroups 10 imgsC2).1.length
  rw [perceptualFindGroups_core 200 imgsC2 (by decide),
    perceptualFindGroups_core 10 imgsC2 (by decide),
    buildGroups_fst, buildGroups_fst]
  have h200 : ((collectGroups
      (ufUnionPairs (newUnionFind imgsC2.length)
        (pairsFrom 200 imgsC2 ⟨none⟩ (List.range imgsC2.length)))
      imgsC2.length).2.map (fun e => e.2)) = [[0, 1]] := by decide
  have h10 : ((collectGroups
      (ufUnionPairs (newUnionFind imgsC2.length)
        (pairsFrom 10 imgsC2 ⟨none⟩ (List.range imgsC2.length)))
      imgsC2.length).2.map (fun e => e.2)) = [[0], [1]] := by decide
  rw [h200, h10, builtGroups_cons, if_neg (by decide), builtGroups_nil,
    builtGroups_cons, if_pos (by decide), builtGroups_cons, if_pos (by decide),
    builtGroups_nil]
  simp

/-- C2 (amended): a matcher built with a negative threshold (such as −5)
behaves exactly as one built with the default 10 on every input, but a
threshold above 64 (such as 200) is *not* clamped: `NewPerceptualMatcher`
keeps it unchanged. -/
theorem spec_C2_amended :
    (∀ images, PerceptualMatcherFindGroups (-5) images =
      PerceptualMatcherFindGroups 10 images) ∧
    NewPerceptualMatcher (-5) = 10 ∧ NewPerceptualMatcher 200 = 200 :=
  ⟨fun _ => rfl, rfl, rfl⟩

/-- C6 counterexample: `selectKeepAndRemove` writes the group ID through the
shared item pointers, so `FindGroups` returns with the input items mutated:
on two items with equal fingerprints the stored group-ID fields change from
0 to 1. -/
theorem spec_C6_counterexample :
    (PerceptualMatcherFindGroups 10 imgsC6).2 ≠ imgsC6 := by
  show (perceptualFindGroups 10 imgsC6).2 ≠ imgsC6
  rw [perceptualFindGroups_core 10 imgsC6 (by decide), buildGroups_snd,
    buildGroups_fst]
  have hbs : ((collectGroups
      (ufUnionPairs (newUnionFind imgsC6.length)
        (pairsFrom 10 imgsC6 ⟨none⟩ (List.range imgsC6.length)))
      imgsC6.length).2.map (fun e => e.2)) = [[0, 1]] := by decide
  rw [hbs, builtGroups_cons, if_neg (by decide), builtGroups_nil]
  decide

/-- C6 (amended): the group-ID field is the *only* mutation — after erasing
it (overwriting with 0) the items that `FindGroups` leaves behind are
exactly the input items. -/
theorem spec_C6_amended (threshold : Int) (images : List ImageInfo) :
    (PerceptualMatcherFindGroups threshold images).2.map (fun img => setGid img 0) =
      images.map (fun img => setGid img 0) := by
  unfold PerceptualMatcherFindGroups
  by_cases hn : images.length < 2
  · rw [perceptualFindGroups_lt2 _ _ hn]
  · rw [perceptualFindGroups_core _ _ hn, buildGroups_snd]
    exact applyGroupIDs_clear images _

/-- C8: every cluster emitted by any of the three strategies (perceptual,
brute force, exact) has at least 2 members. -/
theorem spec_C8 (threshold : Int) (images : List ImageInfo) (g : DuplicateGroup)
    (hg : g ∈ (PerceptualMatcherFindGroups threshold images).1 ∨
      g ∈ (GrouperFindGroups threshold images).1 ∨
      g ∈ (ExactMatcherFindGroups images).1) :
    2 ≤ g.images.length := by
  rcases hg with h | h | h
  · unfold PerceptualMatcherFindGroups at h
    by_cases hn : images.length < 2
    · rw [perceptualFindGroups_lt2 _ _ hn] at h
      simp at h
    · rw [perceptualFindGroups_core _ _ hn] at h
      exact buildGroups_mem_length _ _ g h
  · unfold GrouperFindGroups at h
    by_cases hn : images.length < 2
    · rw [grouperFindGroups_lt2 _ _ hn] at h
      simp at h
    · rw [grouperFindGroups_core _ _ hn] at h
      exact buildGroups_mem_length _ _ g h
  · by_cases hn : images.length < 2
    · unfold ExactMatcherFindGroups at h
      rw [if_pos hn] at h
      simp at h
    · rw [exactFindGroups_core _ hn] at h
      exact buildGroups_mem_length _ _ g h

theorem spec_C8_witness :
    (gW ∈ (PerceptualMatcherFindGroups 10 imgsW).1 ∨
      gW ∈ (GrouperFindGroups 10 imgsW).1 ∨
      gW ∈ (ExactMatcherFindGroups imgsW).1) ∧
    2 ≤ gW.images.length :=
  ⟨Or.inl gW_mem, spec_C8 10 imgsW gW (Or.inl gW_mem)⟩

/-- C10: the clusters of `PerceptualMatcher.FindGroups` have pairwise
disjoint member-key sets (each input item lies in at most one cluster), and
the cluster IDs are the consecutive integers 1, 2, … in ascending order. -/
theorem spec_C10 (threshold : Int) (images : List ImageInfo) :
    (PerceptualMatcherFindGroups threshold images).1.Pairwise
        (fun g1 g2 => ∀ i, i ∈ g1.images.map (fun p => p.1) →
          i ∉ g2.images.map (fun p => p.1)) ∧
      (PerceptualMatcherFindGroups threshold images).1.map (fun g => g.id) =
        (List.range (PerceptualMatcherFindGroups threshold images).1.length).map
          (fun (i : Nat) => 1 + (i : Int)) := by
  unfold PerceptualMatcherFindGroups
  by_cases hn : images.length < 2
  · rw [perceptualFindGroups_lt2 _ _ hn]
    simp
  · rw [perceptualFindGroups_core _ _ hn, buildGroups_fst]
    constructor
    · apply builtGroups_pairwise_disj
      rw [collectGroups_spec _ images.length
        (perceptual_uf_inv (NewPerceptualMatcher threshold).toNat images)]
      exact rootFold_pairwise_disj _ _
    · exact (builtGroups_ids images _ 1).2.2

/-- C3: for every cluster emitted by the perceptual matcher whose members
have pairwise-distinct paths, Keep is the unique maximum of the members
under the comparator order (score desc, file size desc, mod time desc, path
asc) and Remove is exactly the other members: one fewer than the members,
together with Keep a permutation of them, and Keep not among them. -/
theorem spec_C3 (threshold : Int) (images : List ImageInfo) (g : DuplicateGroup)
    (hg : g ∈ (PerceptualMatcherFindGroups threshold images).1)
    (hpaths : (g.images.map (fun p => p.2.path)).Nodup) :
    ∃ k, g.keep = some k ∧ k ∈ g.images ∧
      (∀ m ∈ g.images, m ≠ k → imgSortLess k.2 m.2 = true) ∧
      g.remove.length + 1 = g.images.length ∧
      (k :: g.remove).Perm g.images ∧ k ∉ g.remove := by
  unfold PerceptualMatcherFindGroups at hg
  by_cases hn : images.length < 2
  · rw [perceptualFindGroups_lt2 _ _ hn] at hg
    simp at hg
  · rw [perceptualFindGroups_core _ _ hn, buildGroups_fst] at hg
    obtain ⟨b, hb, hblen, k0, hk0⟩ := builtGroups_mem images _ 1 g hg
    rw [hk0] at hpaths ⊢
    apply selectKeep_final _ _ hpaths
    intro hnil
    have hb2 : b.length = 0 := by
      have hlen0 := congrArg List.length hnil
      simpa using hlen0
    omega

theorem spec_C3_witness :
    gW ∈ (PerceptualMatcherFindGroups 10 imgsW).1 ∧
    (gW.images.map (fun p => p.2.path)).Nodup ∧
    (∃ k, gW.keep = some k ∧ k ∈ gW.images ∧
      (∀ m ∈ gW.images, m ≠ k → imgSortLess k.2 m.2 = true) ∧
      gW.remove.length + 1 = gW.images.length ∧
      (k :: gW.remove).Perm gW.images ∧ k ∉ gW.remove) :=
  ⟨gW_mem, by decide, spec_C3 10 imgsW gW gW_mem (by decide)⟩

/-- C7: in exact mode, two distinct items end up in a common cluster exactly
when both carry the same non-empty content hash; an item with an empty
content hash is in no returned cluster (so empty hashes never cluster
together). -/
theorem spec_C7 (images : List ImageInfo) (i j : Nat)
    (hi : i < images.length) (hj : j < images.length) (hij : i ≠ j) :
    ((∃ g ∈ (ExactMatcherFindGroups images).1,
        i ∈ g.images.map (fun p => p.1) ∧ j ∈ g.images.map (fun p => p.1)) ↔
      ((images.getD i default).fileHash ≠ "" ∧
        (images.getD i default).fileHash = (images.getD j default).fileHash)) ∧
    ((images.getD i default).fileHash = "" →
      ∀ g ∈ (ExactMatcherFindGroups images).1, i ∉ g.images.map (fun p => p.1)) := by
  have hn : ¬ images.length < 2 := by omega
  rw [exactFindGroups_core images hn]
  have hmem0 : ∀ (k : String) (x : Nat),
      (∃ e ∈ exactHashMap images (List.range images.length), e.1 = k ∧ x ∈ e.2) ↔
        (x ∈ List.range images.length ∧
          (images.getD x default).fileHash = k ∧ k ≠ "") := by
    intro k x
    unfold exactHashMap
    rw [exactHashMap_mem images (List.range images.length) [] k x]
    simp
  constructor
  · constructor
    · rintro ⟨g, hg, hgi, hgj⟩
      obtain ⟨b, hb, hblen, hbi, hbj⟩ :=
        (buildGroups_co_mem images _ i j).mp ⟨g, hg, hgi, hgj⟩
      obtain ⟨e, he, hbe⟩ := List.mem_map.mp hb
      have hki := (hmem0 e.1 i).mp ⟨e, he, rfl, hbe ▸ hbi⟩
      have hkj := (hmem0 e.1 j).mp ⟨e, he, rfl, hbe ▸ hbj⟩
      refine ⟨?_, by rw [hki.2.1, hkj.2.1]⟩
      rw [hki.2.1]
      exact hki.2.2
    · rintro ⟨hne, heq⟩
      obtain ⟨ei, hei1, hei2, hei3⟩ := (hmem0 (images.getD i default).fileHash i).mpr
        ⟨List.mem_range.mpr hi, rfl, hne⟩
      obtain ⟨ej, hej1, hej2, hej3⟩ := (hmem0 (images.getD i default).fileHash j).mpr
        ⟨List.mem_range.mpr hj, heq.symm, hne⟩
      have heij : ei = ej := keys_inj _ (exactHashMap_nodup images _) ei hei1 ej hej1
        (by rw [hei2, hej2])
      subst heij
      apply (buildGroups_co_mem images _ i j).mpr
      exact ⟨ei.2, List.mem_map.mpr ⟨ei, hei1, rfl⟩,
        two_mem_length ei.2 i j hei3 hej3 hij, hei3, hej3⟩
  · intro hempty g hg hgi
    obtain ⟨b, hb, hbi⟩ := buildGroups_mem_idx images _ g hg i hgi
    obtain ⟨e, he, hbe⟩ := List.mem_map.mp hb
    have hk := (hmem0 e.1 i).mp ⟨e, he, rfl, hbe ▸ hbi⟩
    exact hk.2.2 (by rw [← hk.2.1, hempty])

theorem spec_C7_witness :
    0 < imgsE.length ∧ 1 < imgsE.length ∧ (0 : Nat) ≠ 1 ∧
      (((∃ g ∈ (ExactMatcherFindGroups imgsE).1,
          0 ∈ g.images.map (fun p => p.1) ∧ 1 ∈ g.images.map (fun p => p.1)) ↔
        ((imgsE.getD 0 default).fileHash ≠ "" ∧
          (imgsE.getD 0 default).fileHash = (imgsE.getD 1 default).fileHash)) ∧
      ((imgsE.getD 0 default).fileHash = "" →
        ∀ g ∈ (ExactMatcherFindGroups imgsE).1,
          0 ∉ g.images.map (fun p => p.1))) :=
  ⟨by decide, by decide, by decide,
    spec_C7 imgsE 0 1 (by decide) (by decide) (by decide)⟩
